import Mathlib

/-!
Verification of the diff/group/apply/resolve engine of vim-ollama.

The definitions below are a shallow embedding of `python/CodeEditor.py` and
`python/VimHelper.py`.  Buffers are `List String` (1-indexed through the
`VimHelper` operations), line numbers are `Int` (Python integers), and the
in-place mutation of the Vim buffer and of the module-level globals
(`g_groups`) is made explicit by threading an `EditorState` value.  A Python
exception is modelled by `Except`, with the error value carrying the state at
the point where the exception is raised (Python mutates the buffer in place,
so a failed call can leave a partially modified buffer behind).
-/

set_option autoImplicit false

deriving instance DecidableEq for Except

namespace VimOllama

/-- Python's whitespace set for `str.rstrip()` (ASCII part; the lines handled
by the plugin are code lines, for which this is exact). -/
def pySpace (c : Char) : Bool :=
  c = ' ' || c = '\t' || c = '\n' || c = '\r' || c = '\x0b' || c = '\x0c'

/-- Python `s.rstrip()`: remove trailing whitespace. -/
def pyRstrip (s : String) : String :=
  ⟨(s.data.reverse.dropWhile pySpace).reverse⟩

/-- Python sequence indexing: index `i` into a sequence of length `n`;
negative indices count from the end, anything else raises `IndexError`
(modelled as `none`). -/
def pyIdx (n : Nat) (i : Int) : Option Nat :=
  if i < 0 then
    if 0 ≤ i + n then some (i + n).toNat else none
  else
    if i < n then some i.toNat else none

/-- `VimHelper.GetLine`: `buffer[lineno - 1]`. -/
def GetLine (lineno : Int) (buffer : List String) : Option String :=
  match pyIdx buffer.length (lineno - 1) with
  | none => none
  | some j => buffer.get? j

/-- `VimHelper.InsertLine`: clamp `lineno` into `[1, len+1]`, then either
append (at the end) or splice in via `buffer[l-1:l-1] = [content]`. -/
def InsertLine (lineno : Int) (content : String) (buffer : List String) :
    List String :=
  let n : Int := buffer.length
  let l := if lineno < 1 then 1 else if lineno > n + 1 then n + 1 else lineno
  if l = n + 1 then buffer ++ [content]
  else buffer.take (l - 1).toNat ++ [content] ++ buffer.drop (l - 1).toNat

/-- `VimHelper.DeleteLine`: read `buffer[lineno - 1]`, then `del` it,
returning the removed content together with the new buffer. -/
def DeleteLine (lineno : Int) (buffer : List String) :
    Option (String × List String) :=
  match pyIdx buffer.length (lineno - 1) with
  | none => none
  | some j =>
    match buffer.get? j with
    | none => none
    | some s => some (s, buffer.take j ++ buffer.drop (j + 1))

/-- A diff group: `@dataclass Group` of `CodeEditor.py`. -/
structure Group where
  start_line : Int
  end_line : Int
  changes : List String
deriving DecidableEq, Repr

/-- Overlay annotations (signs, text properties) emitted by the engine.
The sign and text-property primitives (`PlaceSign`, `UnplaceSign`,
`ShowTextAbove`, `ShowTextBelow`) are not buffer operations; they are
modelled from the spec's overlay-sink interface and from the repository's own
test double (`FakeVimHelper` in `tests/test_codeeditor.py`), which records
them without touching buffer content.  Highlight properties keep the
`(line, propId, propname)` key used by `VimHelper.HighlightLine` /
`ClearHighlights`. -/
structure Overlay where
  signs : List (Int × String)
  aboveText : List (Int × String × String)
  belowText : List (Int × String × String)
  highlights : List (Int × Int × String)
deriving DecidableEq, Repr

/-- Update an association list at a key (Python dict assignment). -/
def updateAssoc (line : Int) (name : String) :
    List (Int × String) → List (Int × String)
  | [] => [(line, name)]
  | (l, n) :: rest =>
    if l = line then (l, name) :: rest else (l, n) :: updateAssoc line name rest

/-- Modelled from the spec: `mark` a sign on a line (the repository calls
`VimHelper.PlaceSign`, implemented in the test double as `signs[line] = name`). -/
def PlaceSign (lineno : Int) (signname : String) (ov : Overlay) : Overlay :=
  { ov with signs := updateAssoc lineno signname ov.signs }

/-- Modelled from the spec: remove the sign on a line (test double:
`signs[line] = ''`). -/
def UnplaceSign (lineno : Int) (ov : Overlay) : Overlay :=
  { ov with signs := updateAssoc lineno "" ov.signs }

/-- `VimHelper.HighlightLine`: add a text property `(line, propId, propname)`. -/
def HighlightLine (lineno : Int) (propId : Int) (propname : String)
    (ov : Overlay) : Overlay :=
  { ov with highlights := ov.highlights ++ [(lineno, propId, propname)] }

/-- `VimHelper.ClearHighlights`: remove all text properties with the given
id and name. -/
def ClearHighlights (propId : Int) (propname : String) (ov : Overlay) :
    Overlay :=
  { ov with highlights :=
      ov.highlights.filter fun e => !(e.2.1 = propId && e.2.2 = propname) }

/-- Modelled from the spec: show text above a line (`mark_deleted_context`);
the call sites in `apply_diff` pass `(lineno, propname, text)`. -/
def ShowTextAbove (lineno : Int) (propname : String) (text : String)
    (ov : Overlay) : Overlay :=
  { ov with aboveText := ov.aboveText ++ [(lineno, propname, text)] }

/-- Modelled from the spec: show text below a line. -/
def ShowTextBelow (lineno : Int) (propname : String) (text : String)
    (ov : Overlay) : Overlay :=
  { ov with belowText := ov.belowText ++ [(lineno, propname, text)] }

/-- A raised Python exception, as observed by the caller. -/
inductive PyErr where
  /-- `IndexError` from indexing a buffer out of range. -/
  | indexError
  /-- "diff does not apply at deleted line": forward apply mismatch. -/
  | applyMismatchDeleted (lineno : Int) (expected actual : String)
  /-- "diff does not apply at unmodified line": context mismatch. -/
  | applyMismatchContext (lineno : Int) (expected : String)
  /-- "diff does not apply to restore deleted line": reject mismatch. -/
  | rejectMismatch (lineno : Int) (expected actual : String)
  /-- `TypeError: object of type 'NoneType' has no len()` from
  `len(g_groups)` when `g_groups is None`. -/
  | typeErrorLenNone
deriving DecidableEq, Repr

/-- The module-level mutable state of `CodeEditor.py` that the engine closes
over: the live buffer, the group registry `g_groups` (`None` or a list), and
the overlay annotations. -/
structure EditorState where
  buffer : List String
  groups : Option (List Group)
  overlay : Overlay
deriving DecidableEq, Repr

/-- Result of an accept/reject call: either the group was found and
processed, or the sanity check `if not group` failed and the function
returned after logging (no exception). -/
inductive CallResult where
  | found
  | notFound
deriving DecidableEq, Repr

/-- Loop body of `apply_change`: walk the diff lines, mutating the buffer.
Returns the final buffer and `line_offset`; a raised exception carries the
buffer at the point of the raise (a mismatching deleted line has already been
removed when the exception fires). -/
def applyChangeLoop :
    List String → List String → Int → Except (PyErr × List String) (List String × Int)
  | [], buf, off => .ok (buf, off)
  | line :: rest, buf, off =>
    match line.data with
    | '+' :: ' ' :: t =>
      applyChangeLoop rest (InsertLine off (pyRstrip ⟨t⟩) buf) (off + 1)
    | '-' :: ' ' :: t =>
      match DeleteLine off buf with
      | none => .error (.indexError, buf)
      | some (old, buf') =>
        if old ≠ (⟨t⟩ : String) then
          .error (.applyMismatchDeleted off ⟨t⟩ old, buf')
        else applyChangeLoop rest buf' off
    | '?' :: ' ' :: _ => applyChangeLoop rest buf off
    | ' ' :: ' ' :: t =>
      match GetLine off buf with
      | none => .error (.indexError, buf)
      | some old =>
        if (⟨t⟩ : String) ≠ old then
          .error (.applyMismatchContext off ⟨t⟩, buf)
        else applyChangeLoop rest buf (off + 1)
    | _ => applyChangeLoop rest buf (off + 1)

/-- `apply_change(diff, buf, line_offset)`: apply a diff directly (no
overlay), returning the final buffer. -/
def apply_change (diff : List String) (buf : List String)
    (line_offset : Int := 1) : Except (PyErr × List String) (List String) :=
  match applyChangeLoop diff buf line_offset with
  | .error e => .error e
  | .ok (buf', _) => .ok buf'

/-- `compute_diff` produces `ndiff`-style lines: `"- old"`, `"+ new"`,
`"  same"`.  At the record level these are: -/
inductive Rec where
  | ctx (t : String)
  | del (t : String)
  | ins (t : String)
deriving DecidableEq, Repr

/-- Encode a record as the `ndiff` line the Python code pattern-matches on
(`line.startswith('- ')` etc., content `line[2:]`). -/
def encRec : Rec → String
  | .ctx t => ⟨' ' :: ' ' :: t.data⟩
  | .del t => ⟨'-' :: ' ' :: t.data⟩
  | .ins t => ⟨'+' :: ' ' :: t.data⟩

/-- Length of a longest common subsequence, used to model the line
alignment `difflib.ndiff` computes.  Structural recursion on a fuel
parameter keeps the definition kernel-computable; with
`fuel ≥ length a + length b` the fuel never runs out. -/
def lcsLen : Nat → List String → List String → Nat
  | 0, _, _ => 0
  | _ + 1, [], _ => 0
  | _ + 1, _ :: _, [] => 0
  | fuel + 1, a :: as, b :: bs =>
    if a = b then lcsLen fuel as bs + 1
    else max (lcsLen fuel (a :: as) bs) (lcsLen fuel as (b :: bs))

/-- Model of `difflib.ndiff` at the line level: an LCS-based alignment
emitting `ctx` for matched lines, `del`/`ins` otherwise (deletions first,
as `ndiff` does for replaced blocks).  The intraline `'? '` hint lines that
`ndiff` sometimes adds are omitted from the model: every consumer in
`CodeEditor.py` (`group_diff`, `apply_diff`, `apply_change`) skips them
without any state change.  `fuel` as in `lcsLen`. -/
def recDiff : Nat → List String → List String → List Rec
  | 0, _, _ => []
  | _ + 1, [], bs => bs.map .ins
  | _ + 1, a :: as, [] => (a :: as).map .del
  | fuel + 1, a :: as, b :: bs =>
    if a = b then .ctx a :: recDiff fuel as bs
    else if lcsLen fuel (a :: as) bs ≤ lcsLen fuel as (b :: bs) then
      .del a :: recDiff fuel as (b :: bs)
    else .ins b :: recDiff fuel (a :: as) bs

/-- `compute_diff(old_lines, new_lines) = list(ndiff(old_lines, new_lines))`. -/
def compute_diff (old_lines new_lines : List String) : List String :=
  (recDiff (old_lines.length + new_lines.length) old_lines new_lines).map encRec

/-- One step of the `group_diff` scan; mirrors the loop body of
`CodeEditor.group_diff`.  `current_start_line` is `None` in Python until the
first change of a group is seen; it is only ever read when closing a
non-empty group, at which point it has been set, so it is carried here as a
plain `Int` (initial value never read). -/
def groupDiffAux (diff : List String) (grouped : List Group)
    (current : List String) (currentStart : Int) (lineNumber : Int) :
    List Group :=
  match diff with
  | [] =>
    if current ≠ [] then
      grouped ++ [⟨currentStart, lineNumber - 1, current⟩]
    else grouped
  | line :: rest =>
    match line.data with
    | '-' :: ' ' :: _ =>
      groupDiffAux rest grouped (current ++ [line])
        (if current = [] then lineNumber else currentStart) lineNumber
    | '+' :: ' ' :: _ =>
      groupDiffAux rest grouped (current ++ [line])
        (if current = [] then lineNumber else currentStart) (lineNumber + 1)
    | ' ' :: ' ' :: _ =>
      groupDiffAux rest
        (if current ≠ [] then
          grouped ++ [⟨currentStart, lineNumber, current⟩]
        else grouped)
        [] currentStart (lineNumber + 1)
    | '?' :: ' ' :: _ => groupDiffAux rest grouped current currentStart lineNumber
    | _ => groupDiffAux rest grouped current currentStart (lineNumber + 1)

/-- `group_diff(diff, starting_line)`: partition a diff into groups of
consecutive changed lines. -/
def group_diff (diff : List String) (starting_line : Int := 1) : List Group :=
  groupDiffAux diff [] [] 0 starting_line

/-- Loop body of `apply_diff(changeId, diff, buf, line_offset)`: like
`apply_change` but also emitting overlay annotations and collecting deleted
lines for the "changed"/"deleted-above" context display. -/
def applyDiffLoop (changeId : Int) :
    List String → List String → Overlay → Int → List String →
    Except (PyErr × List String × Overlay)
      (List String × Overlay × Int × List String)
  | [], buf, ov, off, deleted => .ok (buf, ov, off, deleted)
  | line :: rest, buf, ov, off, deleted =>
    match line.data with
    | '+' :: ' ' :: t =>
      let content := pyRstrip ⟨t⟩
      let buf' := InsertLine off content buf
      let ov₁ := HighlightLine off changeId "OllamaDiffAdd" ov
      let ov₂ :=
        if deleted ≠ [] then
          PlaceSign off "ChangedLine"
            (deleted.foldl (fun o d => ShowTextAbove off "OllamaDiffDel" d o) ov₁)
        else PlaceSign off "NewLine" ov₁
      applyDiffLoop changeId rest buf' ov₂ (off + 1) []
    | '-' :: ' ' :: t =>
      match DeleteLine off buf with
      | none => .error (.indexError, buf, ov)
      | some (old, buf') =>
        if old ≠ (⟨t⟩ : String) then
          .error (.applyMismatchDeleted off ⟨t⟩ old, buf', ov)
        else applyDiffLoop changeId rest buf' ov off (deleted ++ [old])
    | '?' :: ' ' :: _ => applyDiffLoop changeId rest buf ov off deleted
    | ' ' :: ' ' :: t =>
      let ov₂ :=
        if deleted ≠ [] then
          PlaceSign off "DeletedLine"
            (deleted.foldl (fun o d => ShowTextAbove off "OllamaDiffDel" d o) ov)
        else ov
      match GetLine off buf with
      | none => .error (.indexError, buf, ov₂)
      | some old =>
        if (⟨t⟩ : String) ≠ old then
          .error (.applyMismatchContext off ⟨t⟩, buf, ov₂)
        else applyDiffLoop changeId rest buf ov₂ (off + 1) []
    | _ => applyDiffLoop changeId rest buf ov off deleted

/-- `apply_diff(changeId, diff, buf, line_offset)`: apply a diff as an
inline diff with overlay annotations; at the end, any still-pending deleted
lines are shown below the last line (at buffer end) or above the following
line. -/
def apply_diff (changeId : Int) (diff : List String) (buf : List String)
    (ov : Overlay) (line_offset : Int) :
    Except (PyErr × List String × Overlay) (List String × Overlay) :=
  match applyDiffLoop changeId diff buf ov line_offset [] with
  | .error e => .error e
  | .ok (buf', ov', off, deleted) =>
    if off ≥ (buf'.length : Int) then
      .ok (buf',
        deleted.foldl (fun o d => ShowTextBelow (off - 1) "OllamaDiffDel" d o) ov')
    else
      .ok (buf',
        deleted.foldl (fun o d => ShowTextAbove off "OllamaDiffDel" d o) ov')

/-- Loop of `apply_diff_groups`: apply each group's changes at its recorded
start line, with the group's enumeration index as the overlay property id. -/
def applyDiffGroupsLoop (index : Int) (groups : List Group)
    (buf : List String) (ov : Overlay) :
    Except (PyErr × List String × Overlay) (List String × Overlay) :=
  match groups with
  | [] => .ok (buf, ov)
  | g :: rest =>
    match apply_diff index g.changes buf ov g.start_line with
    | .error e => .error e
    | .ok (buf', ov') => applyDiffGroupsLoop (index + 1) rest buf' ov'

/-- `apply_diff_groups(groups, buf)`: store the groups in the global
registry (`g_groups = groups`) and apply each one. -/
def apply_diff_groups (groups : List Group) (st : EditorState) :
    Except (PyErr × EditorState) EditorState :=
  let st := { st with groups := some groups }
  match applyDiffGroupsLoop 0 groups st.buffer st.overlay with
  | .error (e, buf, ov) => .error (e, { st with buffer := buf, overlay := ov })
  | .ok (buf, ov) => .ok { st with buffer := buf, overlay := ov }

/-- `GetGroup(index)`: range-checked lookup in the global registry.  When
`g_groups` is `None`, the expression `len(g_groups)` raises `TypeError`. -/
def GetGroup (index : Int) (st : EditorState) :
    Except PyErr (Option Group) :=
  match st.groups with
  | none => .error .typeErrorLenNone
  | some gs =>
    if index < 0 ∨ (gs.length : Int) ≤ index then .ok none
    else .ok (gs.get? index.toNat)

/-- Overlay effect of `AcceptChange` on a found group: remove the signs on
every line of the group's span (`for line in range(start_line,
end_line + 1): UnplaceSign(line)`), then clear the highlight properties
carrying this group's id. -/
def acceptOverlay (index : Int) (group : Group) (ov : Overlay) : Overlay :=
  let span := (List.range (group.end_line + 1 - group.start_line).toNat).map
    (fun k : Nat => group.start_line + (k : Int))
  let ov₁ := span.foldl (fun o l => UnplaceSign l o) ov
  let ov₂ := ClearHighlights index "OllamaDiffAdd" ov₁
  ClearHighlights index "OllamaDiffDel" ov₂

/-- `AcceptChange(index)`: look the group up; if absent, log and return
(`CallResult.notFound`).  Otherwise remove the signs on the group's span and
the highlight properties with this group's id (`acceptOverlay`).  Neither
the buffer nor the registry is touched. -/
def AcceptChange (index : Int) (st : EditorState) :
    Except (PyErr × EditorState) (EditorState × CallResult) :=
  match GetGroup index st with
  | .error e => .error (e, st)
  | .ok none => .ok (st, .notFound)
  | .ok (some group) =>
    .ok ({ st with overlay := acceptOverlay index group st.overlay }, .found)

/-- Undo loop of `RejectChange`: walk the group's recorded changes from its
`start_line`, re-inserting `'- '` lines (cursor advances) and deleting
`'+ '` lines after checking their content (cursor stays).  Returns the new
buffer and overlay, the final cursor and `restored_lines`. -/
def rejectLoop :
    List String → List String → Overlay → Int → Int →
    Except (PyErr × List String × Overlay)
      (List String × Overlay × Int × Int)
  | [], buf, ov, lineno, restored => .ok (buf, ov, lineno, restored)
  | line :: rest, buf, ov, lineno, restored =>
    let ov := UnplaceSign lineno ov
    match line.data with
    | '-' :: ' ' :: t =>
      rejectLoop rest (InsertLine lineno (⟨t⟩ : String) buf) ov (lineno + 1)
        (restored + 1)
    | '+' :: ' ' :: t =>
      match DeleteLine lineno buf with
      | none => .error (.indexError, buf, ov)
      | some (old, buf') =>
        if old ≠ (⟨t⟩ : String) then
          .error (.rejectMismatch lineno ⟨t⟩ old, buf', ov)
        else rejectLoop rest buf' ov lineno (restored - 1)
    | _ => rejectLoop rest buf ov lineno restored

/-- Line-shift correction after a rejection: `for i in
range(index + 1, len(g_groups)): g_groups[i].start_line += restored` (and
likewise `end_line`).  `j` is the position of the list head. -/
def shiftAfter (index restored : Int) (j : Int) : List Group → List Group
  | [] => []
  | g :: rest =>
    (if index < j then
      { g with start_line := g.start_line + restored,
               end_line := g.end_line + restored }
    else g) :: shiftAfter index restored (j + 1) rest

/-- `RejectChange(index)`: look the group up; if absent, log and return.
Otherwise clear this group's highlight properties, undo its changes against
the buffer, and shift the recorded spans of all groups after it by
`restored_lines`. -/
def RejectChange (index : Int) (st : EditorState) :
    Except (PyErr × EditorState) (EditorState × CallResult) :=
  match st.groups with
  | none => .error (.typeErrorLenNone, st)
  | some gs =>
    if index < 0 ∨ (gs.length : Int) ≤ index then .ok (st, .notFound)
    else
      match gs.get? index.toNat with
      | none => .ok (st, .notFound)
      | some group =>
        let ov₁ := ClearHighlights index "OllamaDiffAdd" st.overlay
        let ov₂ := ClearHighlights index "OllamaDiffDel" ov₁
        match rejectLoop group.changes st.buffer ov₂ group.start_line 0 with
        | .error (e, buf, ov) =>
          .error (e, { st with buffer := buf, overlay := ov })
        | .ok (buf, ov, _, restored) =>
          .ok ({ st with
                  buffer := buf,
                  overlay := ov,
                  groups := some (shiftAfter index restored 0 gs) }, .found)

/-- Loop of `RejectAllChanges`: `for i, g in enumerate(groups):
RejectChange(i)`. -/
def rejectAllLoop (st : EditorState) :
    List Nat → Except (PyErr × EditorState) EditorState
  | [] => .ok st
  | i :: rest =>
    match RejectChange (i : Int) st with
    | .error e => .error e
    | .ok (st', _) => rejectAllLoop st' rest

/-- `RejectAllChanges()`: if the registry is `None` or empty, return; else
set `g_groups = None` and then call `RejectChange(i)` for each index in
ascending order.  (Each such call reads the now-`None` global registry.) -/
def RejectAllChanges (st : EditorState) :
    Except (PyErr × EditorState) EditorState :=
  match st.groups with
  | none => .ok st
  | some gs =>
    if gs = [] then .ok st
    else rejectAllLoop { st with groups := none } (List.range gs.length)

/-! ### Buffer-operation lemmas -/

theorem get?_append_len {α : Type} (A Z : List α) (t : α) :
    (A ++ t :: Z).get? A.length = some t := by
  induction A with
  | nil => rfl
  | cons a A ih => exact ih

theorem take_append_len {α : Type} (A B : List α) :
    (A ++ B).take A.length = A := by
  induction A with
  | nil => rfl
  | cons a A ih => simp [ih]

theorem drop_append_len {α : Type} (A B : List α) :
    (A ++ B).drop A.length = B := by
  induction A with
  | nil => rfl
  | cons a A ih => simp [ih]

theorem drop_append_len_succ {α : Type} (A Z : List α) (t : α) :
    (A ++ t :: Z).drop (A.length + 1) = Z := by
  induction A with
  | nil => rfl
  | cons a A ih => exact ih

theorem pyIdx_at (A : List String) (n : Nat) (h : A.length < n) :
    pyIdx n ((A.length : Int) + 1 - 1) = some A.length := by
  simp only [pyIdx, add_sub_cancel_right]
  rw [if_neg (by omega), if_pos (by exact_mod_cast h)]
  simp

theorem GetLine_at (A Z : List String) (t : String) :
    GetLine ((A.length : Int) + 1) (A ++ t :: Z) = some t := by
  unfold GetLine
  rw [pyIdx_at A _ (by simp)]
  show (A ++ t :: Z).get? A.length = some t
  exact get?_append_len A Z t

theorem DeleteLine_at (A Z : List String) (t : String) :
    DeleteLine ((A.length : Int) + 1) (A ++ t :: Z) = some (t, A ++ Z) := by
  unfold DeleteLine
  rw [pyIdx_at A _ (by simp)]
  show (match (A ++ t :: Z).get? A.length with
        | none => none
        | some s => some (s, (A ++ t :: Z).take A.length ++
            (A ++ t :: Z).drop (A.length + 1))) = some (t, A ++ Z)
  rw [get?_append_len A Z t]
  rw [show (A ++ t :: Z).take A.length = (A ++ t :: Z).take (A ++ []).length by simp]
  rw [show A ++ t :: Z = (A ++ []) ++ t :: Z by simp, take_append_len]
  simp only [List.append_nil]
  rw [drop_append_len_succ]

theorem InsertLine_at (A Z : List String) (t : String) :
    InsertLine ((A.length : Int) + 1) t (A ++ Z) = A ++ t :: Z := by
  simp only [InsertLine, List.length_append, Nat.cast_add]
  rw [if_neg (show ¬((A.length : Int) + 1 < 1) by omega)]
  rw [if_neg (show ¬((A.length : Int) + 1 > (A.length : Int) + (Z.length : Int) + 1) by omega)]
  by_cases hZ : Z = []
  · subst hZ
    rw [if_pos (by simp)]
    simp
  · rw [if_neg (by
      intro hc
      have hz : (Z.length : Int) = 0 := by omega
      exact hZ (List.length_eq_zero.mp (by exact_mod_cast hz)))]
    simp only [add_sub_cancel_right, Int.toNat_natCast]
    rw [take_append_len, drop_append_len]
    simp

/-! ### Record-level view of diff scripts -/

/-- The old line sequence a script describes: text of `ctx` and `del`
records, in order. -/
def recOld : List Rec → List String
  | [] => []
  | .ctx t :: rest => t :: recOld rest
  | .del t :: rest => t :: recOld rest
  | .ins _ :: rest => recOld rest

/-- The new line sequence a script describes: text of `ctx` and `ins`
records, in order. -/
def recNewRaw : List Rec → List String
  | [] => []
  | .ctx t :: rest => t :: recNewRaw rest
  | .del _ :: rest => recNewRaw rest
  | .ins t :: rest => t :: recNewRaw rest

/-- The buffer content the engine actually produces when applying a script:
like `recNewRaw`, but inserted lines are right-stripped (the code inserts
`line[2:].rstrip()`). -/
def recNewR : List Rec → List String
  | [] => []
  | .ctx t :: rest => t :: recNewR rest
  | .del _ :: rest => recNewR rest
  | .ins t :: rest => pyRstrip t :: recNewR rest

theorem recOld_map_ins (bs : List String) : recOld (bs.map .ins) = [] := by
  induction bs with
  | nil => rfl
  | cons b bs ih => simpa [recOld] using ih

theorem recOld_map_del (as : List String) : recOld (as.map .del) = as := by
  induction as with
  | nil => rfl
  | cons a as ih => simpa [recOld] using ih

theorem recNewRaw_map_ins (bs : List String) : recNewRaw (bs.map .ins) = bs := by
  induction bs with
  | nil => rfl
  | cons b bs ih => simpa [recNewRaw] using ih

theorem recNewRaw_map_del (as : List String) : recNewRaw (as.map .del) = [] := by
  induction as with
  | nil => rfl
  | cons a as ih => simpa [recNewRaw] using ih

theorem recOld_recDiff : ∀ (fuel : Nat) (a b : List String),
    a.length + b.length ≤ fuel → recOld (recDiff fuel a b) = a := by
  intro fuel
  induction fuel with
  | zero =>
    intro a b h
    have ha : a = [] := List.eq_nil_of_length_eq_zero (by omega)
    subst ha
    rfl
  | succ n ih =>
    intro a b h
    cases a with
    | nil => exact recOld_map_ins b
    | cons a as =>
      cases b with
      | nil => exact recOld_map_del (a :: as)
      | cons b bs =>
        show recOld (if a = b then .ctx a :: recDiff n as bs
          else if lcsLen n (a :: as) bs ≤ lcsLen n as (b :: bs) then
            .del a :: recDiff n as (b :: bs)
          else .ins b :: recDiff n (a :: as) bs) = a :: as
        by_cases hab : a = b
        · rw [if_pos hab]
          simp only [recOld]
          rw [ih as bs (by simp at h ⊢; omega)]
        · rw [if_neg hab]
          by_cases hl : lcsLen n (a :: as) bs ≤ lcsLen n as (b :: bs)
          · rw [if_pos hl]
            simp only [recOld]
            rw [ih as (b :: bs) (by simp at h ⊢; omega)]
          · rw [if_neg hl]
            simp only [recOld]
            rw [ih (a :: as) bs (by simp at h ⊢; omega)]

theorem recNewRaw_recDiff : ∀ (fuel : Nat) (a b : List String),
    a.length + b.length ≤ fuel → recNewRaw (recDiff fuel a b) = b := by
  intro fuel
  induction fuel with
  | zero =>
    intro a b h
    have ha : a = [] := List.eq_nil_of_length_eq_zero (by omega)
    have hb : b = [] := List.eq_nil_of_length_eq_zero (by omega)
    subst ha; subst hb
    rfl
  | succ n ih =>
    intro a b h
    cases a with
    | nil => exact recNewRaw_map_ins b
    | cons a as =>
      cases b with
      | nil => exact recNewRaw_map_del (a :: as)
      | cons b bs =>
        show recNewRaw (if a = b then .ctx a :: recDiff n as bs
          else if lcsLen n (a :: as) bs ≤ lcsLen n as (b :: bs) then
            .del a :: recDiff n as (b :: bs)
          else .ins b :: recDiff n (a :: as) bs) = b :: bs
        by_cases hab : a = b
        · rw [if_pos hab]
          simp only [recNewRaw]
          rw [ih as bs (by simp at h ⊢; omega), hab]
        · rw [if_neg hab]
          by_cases hl : lcsLen n (a :: as) bs ≤ lcsLen n as (b :: bs)
          · rw [if_pos hl]
            simp only [recNewRaw]
            rw [ih as (b :: bs) (by simp at h ⊢; omega)]
          · rw [if_neg hl]
            simp only [recNewRaw]
            rw [ih (a :: as) bs (by simp at h ⊢; omega)]

/-- If every line of the new sequence is fixed by `rstrip`, the applied
buffer equals the new sequence. -/
theorem recNewR_eq_raw : ∀ S : List Rec,
    (∀ t ∈ recNewRaw S, pyRstrip t = t) → recNewR S = recNewRaw S := by
  intro S
  induction S with
  | nil => intro _; rfl
  | cons r rest ih =>
    intro h
    cases r with
    | ctx t =>
      simp only [recNewR, recNewRaw]
      exact congrArg _ (ih fun t ht => h t (by simp [recNewRaw, ht]))
    | del t =>
      simp only [recNewR, recNewRaw]
      exact ih fun t ht => h t (by simp [recNewRaw, ht])
    | ins t =>
      simp only [recNewR, recNewRaw]
      rw [h t (by simp [recNewRaw]), ih (fun u hu => h u (by simp [recNewRaw, hu]))]

/-! ### Forward application of a valid script -/

theorem applyChangeLoop_ctx (t old : String) (rest : List String)
    (buf : List String) (off : Int) (h : GetLine off buf = some old) :
    applyChangeLoop (encRec (.ctx t) :: rest) buf off =
      if t ≠ old then .error (.applyMismatchContext off t, buf)
      else applyChangeLoop rest buf (off + 1) := by
  have e : applyChangeLoop (encRec (.ctx t) :: rest) buf off =
      (match GetLine off buf with
       | none => .error (.indexError, buf)
       | some old =>
         if t ≠ old then .error (.applyMismatchContext off t, buf)
         else applyChangeLoop rest buf (off + 1)) := rfl
  rw [e, h]

theorem applyChangeLoop_del (t old : String) (rest : List String)
    (buf buf' : List String) (off : Int)
    (h : DeleteLine off buf = some (old, buf')) :
    applyChangeLoop (encRec (.del t) :: rest) buf off =
      if old ≠ t then .error (.applyMismatchDeleted off t old, buf')
      else applyChangeLoop rest buf' off := by
  have e : applyChangeLoop (encRec (.del t) :: rest) buf off =
      (match DeleteLine off buf with
       | none => .error (.indexError, buf)
       | some (old, buf') =>
         if old ≠ t then .error (.applyMismatchDeleted off t old, buf')
         else applyChangeLoop rest buf' off) := rfl
  rw [e, h]

theorem applyChangeLoop_ins (t : String) (rest : List String)
    (buf : List String) (off : Int) :
    applyChangeLoop (encRec (.ins t) :: rest) buf off =
      applyChangeLoop rest (InsertLine off (pyRstrip t) buf) (off + 1) := rfl

/-- Applying a valid script to a buffer that carries the script's old lines
at the cursor position succeeds and replaces them by the script's (stripped)
new lines. -/
theorem applyChangeLoop_enc (S : List Rec) : ∀ A Z : List String,
    applyChangeLoop (S.map encRec) (A ++ recOld S ++ Z) ((A.length : Int) + 1)
      = .ok (A ++ recNewR S ++ Z, (A.length : Int) + (recNewR S).length + 1) := by
  induction S with
  | nil => intro A Z; simp [applyChangeLoop, recOld, recNewR]
  | cons r rest ih =>
    intro A Z
    cases r with
    | ctx t =>
      rw [show recOld (Rec.ctx t :: rest) = t :: recOld rest from rfl]
      rw [show A ++ (t :: recOld rest) ++ Z = A ++ t :: (recOld rest ++ Z) by simp]
      rw [List.map_cons, applyChangeLoop_ctx t t _ _ _ (GetLine_at A _ t)]
      rw [if_neg (by simp)]
      rw [show A ++ t :: (recOld rest ++ Z) = (A ++ [t]) ++ recOld rest ++ Z by simp]
      rw [show (A.length : Int) + 1 + 1 = ((A ++ [t]).length : Int) + 1 by simp]
      rw [ih (A ++ [t]) Z]
      rw [show recNewR (Rec.ctx t :: rest) = t :: recNewR rest from rfl]
      simp only [Except.ok.injEq, Prod.mk.injEq]
      constructor
      · simp
      · simp
        omega
    | del t =>
      rw [show recOld (Rec.del t :: rest) = t :: recOld rest from rfl]
      rw [show A ++ (t :: recOld rest) ++ Z = A ++ t :: (recOld rest ++ Z) by simp]
      rw [List.map_cons,
        applyChangeLoop_del t t _ _ (A ++ (recOld rest ++ Z)) _ (DeleteLine_at A _ t)]
      rw [if_neg (by simp)]
      rw [show A ++ (recOld rest ++ Z) = A ++ recOld rest ++ Z by simp]
      rw [ih A Z]
      rfl
    | ins t =>
      rw [show recOld (Rec.ins t :: rest) = recOld rest from rfl]
      rw [List.map_cons, applyChangeLoop_ins]
      rw [show A ++ recOld rest ++ Z = A ++ (recOld rest ++ Z) by simp]
      rw [InsertLine_at]
      rw [show A ++ pyRstrip t :: (recOld rest ++ Z)
            = (A ++ [pyRstrip t]) ++ recOld rest ++ Z by simp]
      rw [show (A.length : Int) + 1 + 1 = ((A ++ [pyRstrip t]).length : Int) + 1 by simp]
      rw [ih (A ++ [pyRstrip t]) Z]
      rw [show recNewR (Rec.ins t :: rest) = pyRstrip t :: recNewR rest from rfl]
      simp only [Except.ok.injEq, Prod.mk.injEq]
      constructor
      · simp
      · simp
        omega

/-- `apply_change` of a valid script over exactly its old lines. -/
theorem apply_change_enc (S : List Rec) :
    apply_change (S.map encRec) (recOld S) 1 = .ok (recNewR S) := by
  have h := applyChangeLoop_enc S [] []
  simp only [List.nil_append, List.append_nil, List.length_nil,
    Nat.cast_zero, zero_add] at h
  rw [apply_change, h]

/-! ### Claim C2: round-trip of `compute_diff` and `apply_change` -/

/-- C2, counterexample: `apply_change(compute_diff(old, new), copy(old))`
does not always yield `new` — inserted lines are right-stripped
(`line[2:].rstrip()`), so for `old = []`, `new = ["a "]` the resulting
buffer is `["a"]`, not `["a "]`. -/
theorem C2_counterexample :
    apply_change (compute_diff [] ["a "]) [] 1 = .ok ["a"] ∧
      ([("a" : String)] ≠ ["a "]) := by
  constructor
  · rfl
  · decide

/-- C2, amended: for all `old`, `new` such that no line of `new` carries
trailing whitespace, applying `compute_diff(old, new)` with `apply_change`
(direct mode) to a buffer initialized to a copy of `old` succeeds and yields
a buffer equal to `new`. -/
theorem C2_theorem (old new : List String)
    (h : ∀ t ∈ new, pyRstrip t = t) :
    apply_change (compute_diff old new) old 1 = .ok new := by
  have hv := recOld_recDiff (old.length + new.length) old new (Nat.le_refl _)
  have hn := recNewRaw_recDiff (old.length + new.length) old new (Nat.le_refl _)
  have happ := apply_change_enc (recDiff (old.length + new.length) old new)
  rw [hv] at happ
  rw [compute_diff, happ, recNewR_eq_raw _ (by rw [hn]; exact h), hn]

/-- Witness for C2 at a concrete input. -/
theorem C2_witness :
    (∀ t ∈ [("a" : String), "x", "b"], pyRstrip t = t) ∧
      apply_change (compute_diff ["a", "b"] ["a", "x", "b"]) ["a", "b"] 1
        = .ok ["a", "x", "b"] :=
  ⟨by decide, C2_theorem ["a", "b"] ["a", "x", "b"] (by decide)⟩

/-! ### Claim C3: group segmentation spans -/

/-- C3, counterexample: for `old = ["a",...,"f"]`,
`new = ["a","1","b","2","3","c","d","4","5","6","e","f"]`, `group_diff`
yields spans `(2,3)`, `(4,6)`, `(8,11)` — not `(2,2)`, `(4,5)`, `(8,10)` as
claimed: a group closed by a context record gets `end_line` = the cursor at
that context record, one past the last consumed line. -/
theorem C3_counterexample :
    ((group_diff (compute_diff ["a", "b", "c", "d", "e", "f"]
        ["a", "1", "b", "2", "3", "c", "d", "4", "5", "6", "e", "f"]) 1).map
      (fun g => (g.start_line, g.end_line)) = [(2, 3), (4, 6), (8, 11)]) ∧
    ((group_diff (compute_diff ["a", "b", "c", "d", "e", "f"]
        ["a", "1", "b", "2", "3", "c", "d", "4", "5", "6", "e", "f"]) 1).map
      (fun g => (g.start_line, g.end_line)) ≠ [(2, 2), (4, 5), (8, 10)]) := by
  constructor
  · rfl
  · intro h
    rw [show (group_diff (compute_diff ["a", "b", "c", "d", "e", "f"]
        ["a", "1", "b", "2", "3", "c", "d", "4", "5", "6", "e", "f"]) 1).map
      (fun g => (g.start_line, g.end_line)) = [(2, 3), (4, 6), (8, 11)] from rfl] at h
    exact absurd h (by decide)

/-- C3, amended: each group records `start_line` = cursor at its first
non-context record; a group closed by a context record records `end_line` =
the cursor at the closing record (one *past* the last consumed line), while
a group still open at script end records the final cursor minus one.  For
the example the spans are `(2,3)`, `(4,6)`, `(8,11)`. -/
theorem C3_theorem :
    group_diff (compute_diff ["a", "b", "c", "d", "e", "f"]
        ["a", "1", "b", "2", "3", "c", "d", "4", "5", "6", "e", "f"]) 1 =
      [⟨2, 3, ["+ 1"]⟩, ⟨4, 6, ["+ 2", "+ 3"]⟩,
        ⟨8, 11, ["+ 4", "+ 5", "+ 6"]⟩] := by
  rfl

/-! ### Claim C8: `VimHelper` buffer-operation contracts -/

/-- C8, counterexample: `GetLine`/`DeleteLine` do *not* fail for every
`line ∉ [1, len]`: Python indexing accepts negative indices, so line `0`
reads (resp. removes) the *last* line instead of raising. -/
theorem C8_counterexample :
    GetLine 0 ["a"] = some "a" ∧
    DeleteLine 0 ["a", "b"] = some ("b", ["a"]) ∧
    ¬((1 : Int) ≤ 0) := by
  refine ⟨rfl, rfl, by decide⟩

/-- C8, amended: `get` and `delete` fail with `OutOfRange` exactly when
`line` is outside `[1 - len, len]` (line numbers `≤ 0` index from the end,
Python-style); within `[1, len]` they read resp. remove the addressed line
with the subsequent lines shifting up; `insert` clamps `line` into
`[1, len + 1]` and splices the text in so it becomes that line. -/
theorem C8_theorem (buf : List String) (line : Int) (t : String) :
    (GetLine line buf = none ↔
      (line < 1 - buf.length ∨ (buf.length : Int) < line)) ∧
    (DeleteLine line buf = none ↔
      (line < 1 - buf.length ∨ (buf.length : Int) < line)) ∧
    (InsertLine line t buf =
      buf.take ((max 1 (min line ((buf.length : Int) + 1)) - 1)).toNat ++ [t]
        ++ buf.drop ((max 1 (min line ((buf.length : Int) + 1)) - 1)).toNat) ∧
    (∀ A Z : List String, ∀ u : String,
      GetLine ((A.length : Int) + 1) (A ++ u :: Z) = some u ∧
      DeleteLine ((A.length : Int) + 1) (A ++ u :: Z) = some (u, A ++ Z)) := by
  have hidx : ∀ j : Nat, pyIdx buf.length (line - 1) = some j → j < buf.length := by
    intro j hj
    simp only [pyIdx] at hj
    split_ifs at hj with h1 h2
    · simp only [Option.some.injEq] at hj
      omega
    · simp only [Option.some.injEq] at hj
      omega
  have hnone : pyIdx buf.length (line - 1) = none ↔
      (line < 1 - buf.length ∨ (buf.length : Int) < line) := by
    simp only [pyIdx]
    split_ifs with h1 h2 <;> simp <;> omega
  refine ⟨?_, ?_, ?_, ?_⟩
  · rw [GetLine]
    cases hp : pyIdx buf.length (line - 1) with
    | none => simpa using hnone.mp hp
    | some j =>
      have hj := hidx j hp
      show buf.get? j = none ↔ _
      rw [List.get?_eq_get hj]
      simp only [reduceCtorEq, false_iff]
      intro hcon
      rw [← hnone, hp] at hcon
      exact absurd hcon (by simp)
  · rw [DeleteLine]
    cases hp : pyIdx buf.length (line - 1) with
    | none => simpa using hnone.mp hp
    | some j =>
      have hj := hidx j hp
      show (match buf.get? j with
            | none => none
            | some s => some (s, buf.take j ++ buf.drop (j + 1))) = none ↔ _
      rw [List.get?_eq_get hj]
      show some (buf.get ⟨j, hj⟩, buf.take j ++ buf.drop (j + 1)) = none ↔ _
      simp only [reduceCtorEq, false_iff]
      intro hcon
      rw [← hnone, hp] at hcon
      exact absurd hcon (by simp)
  · rw [InsertLine]
    have hcl : (if line < 1 then 1
        else if line > (buf.length : Int) + 1 then (buf.length : Int) + 1
        else line) = max 1 (min line ((buf.length : Int) + 1)) := by
      split_ifs <;> omega
    simp only [hcl]
    by_cases hend : max 1 (min line ((buf.length : Int) + 1)) = (buf.length : Int) + 1
    · rw [if_pos hend, hend]
      simp only [add_sub_cancel_right, Int.toNat_natCast]
      rw [List.take_of_length_le (Nat.le_refl _), List.drop_of_length_le (Nat.le_refl _)]
      simp
    · rw [if_neg hend]
  · intro A Z u
    exact ⟨GetLine_at A Z u, DeleteLine_at A Z u⟩

/-! ### Claim C4: `RejectAllChanges` -/

/-- C4: `RejectAllChanges` sets `g_groups = None` *before* iterating, so the
very first `RejectChange(0)` evaluates `len(g_groups)` = `len(None)` and
raises `TypeError`; no group is ever rejected and the buffer keeps the fully
applied proposal (`["a", "b"]`), not `old = ["a"]`. -/
theorem C4_theorem :
    apply_diff_groups (group_diff (compute_diff ["a"] ["a", "b"]) 1)
        ⟨["a"], none, ⟨[], [], [], []⟩⟩ =
      .ok ⟨["a", "b"], some [⟨2, 2, ["+ b"]⟩],
        ⟨[(2, "NewLine")], [], [], [(2, 0, "OllamaDiffAdd")]⟩⟩ ∧
    RejectAllChanges ⟨["a", "b"], some [⟨2, 2, ["+ b"]⟩],
        ⟨[(2, "NewLine")], [], [], [(2, 0, "OllamaDiffAdd")]⟩⟩ =
      .error (.typeErrorLenNone,
        ⟨["a", "b"], none,
          ⟨[(2, "NewLine")], [], [], [(2, 0, "OllamaDiffAdd")]⟩⟩) ∧
    (["a", "b"] ≠ ["a"]) := by
  refine ⟨rfl, rfl, by decide⟩

/-! ### Claim C1, counterexample -/

/-- C1, counterexample: for `old = []`, `new = ["a ", "b"]` the single group
is `["+ a ", "+ b"]`; applying inserts the right-stripped `"a"`, and the
rejection then compares the buffer line `"a"` against the record text
`"a "`, raises the mismatch exception, and leaves the buffer at `["b"]`,
not `old = []`. -/
theorem C1_counterexample :
    apply_diff_groups (group_diff (compute_diff [] ["a ", "b"]) 1)
        ⟨[], none, ⟨[], [], [], []⟩⟩ =
      .ok ⟨["a", "b"], some [⟨1, 2, ["+ a ", "+ b"]⟩],
        ⟨[(1, "NewLine"), (2, "NewLine")], [], [],
          [(1, 0, "OllamaDiffAdd"), (2, 0, "OllamaDiffAdd")]⟩⟩ ∧
    rejectAllLoop ⟨["a", "b"], some [⟨1, 2, ["+ a ", "+ b"]⟩],
        ⟨[(1, "NewLine"), (2, "NewLine")], [], [],
          [(1, 0, "OllamaDiffAdd"), (2, 0, "OllamaDiffAdd")]⟩⟩ [0] =
      .error (.rejectMismatch 1 "a " "a",
        ⟨["b"], some [⟨1, 2, ["+ a ", "+ b"]⟩],
          ⟨[(1, ""), (2, "NewLine")], [], [], []⟩⟩) ∧
    (["b"] ≠ ([] : List String)) := by
  refine ⟨rfl, rfl, by decide⟩

/-! ### Claims C5 and C9: `AcceptChange` -/

/-- Lookup in the association list modelling the sign dictionary. -/
def lookupAssoc (line : Int) : List (Int × String) → Option String
  | [] => none
  | (l, n) :: rest => if l = line then some n else lookupAssoc line rest

theorem lookupAssoc_updateAssoc_ne (l l' : Int) (n : String)
    (s : List (Int × String)) (h : l ≠ l') :
    lookupAssoc l (updateAssoc l' n s) = lookupAssoc l s := by
  induction s with
  | nil =>
    simp only [updateAssoc, lookupAssoc]
    rw [if_neg (by omega)]
  | cons p rest ih =>
    obtain ⟨pl, pn⟩ := p
    simp only [updateAssoc]
    by_cases hp : pl = l'
    · subst hp
      rw [if_pos rfl]
      simp only [lookupAssoc]
      rw [if_neg (by omega), if_neg (by omega)]
    · rw [if_neg hp]
      simp only [lookupAssoc]
      by_cases hpl : pl = l
      · rw [if_pos hpl, if_pos hpl]
      · rw [if_neg hpl, if_neg hpl]
        exact ih

theorem unplace_fold_signs_frame (lines : List Int) :
    ∀ (ov : Overlay) (l : Int), (∀ l' ∈ lines, l ≠ l') →
    lookupAssoc l (lines.foldl (fun o x => UnplaceSign x o) ov).signs
      = lookupAssoc l ov.signs := by
  induction lines with
  | nil => intro ov l _; rfl
  | cons x rest ih =>
    intro ov l h
    show lookupAssoc l (rest.foldl (fun o x => UnplaceSign x o)
      (UnplaceSign x ov)).signs = _
    rw [ih (UnplaceSign x ov) l (fun l' hl' => h l' (by simp [hl']))]
    exact lookupAssoc_updateAssoc_ne l x "" ov.signs (h x (by simp))

theorem unplace_fold_rest (lines : List Int) : ∀ ov : Overlay,
    (lines.foldl (fun o x => UnplaceSign x o) ov).aboveText = ov.aboveText ∧
    (lines.foldl (fun o x => UnplaceSign x o) ov).belowText = ov.belowText ∧
    (lines.foldl (fun o x => UnplaceSign x o) ov).highlights = ov.highlights := by
  induction lines with
  | nil => intro ov; exact ⟨rfl, rfl, rfl⟩
  | cons x rest ih => intro ov; exact ih (UnplaceSign x ov)

theorem GetGroup_some (buf : List String) (gs : List Group) (ovr : Overlay)
    (i : Int) (g : Group) (h0 : 0 ≤ i) (hg : gs.get? i.toNat = some g) :
    GetGroup i ⟨buf, some gs, ovr⟩ = .ok (some g) := by
  have hlt : i.toNat < gs.length := by
    by_contra hc
    rw [List.get?_eq_none.mpr (by omega)] at hg
    exact absurd hg (by simp)
  show (if i < 0 ∨ (gs.length : Int) ≤ i then Except.ok none
    else .ok (gs.get? i.toNat)) = _
  rw [if_neg (by push_neg; omega), hg]

theorem AcceptChange_found (st : EditorState) (i : Int) (g : Group)
    (hget : GetGroup i st = .ok (some g)) :
    AcceptChange i st
      = .ok ({ st with overlay := acceptOverlay i g st.overlay }, .found) := by
  have e : AcceptChange i st =
      (match GetGroup i st with
       | .error e => .error (e, st)
       | .ok none => .ok (st, .notFound)
       | .ok (some group) =>
         .ok ({ st with overlay := acceptOverlay i group st.overlay },
           .found)) := rfl
  rw [e, hget]

/-- C9: `AcceptChange` on a registered group touches neither the buffer nor
any group's recorded `start_line`/`end_line`; it only clears overlay
annotations — signs on the accepted group's span and the highlight
properties carrying the accepted group's id.  Signs on lines outside the
span, highlight properties with a different id, and all above/below text
are untouched. -/
theorem C9_theorem (st : EditorState) (gs : List Group) (g : Group) (i : Int)
    (h0 : 0 ≤ i) (hg : st.groups = some gs) (hgroup : gs.get? i.toNat = some g) :
    ∃ st', AcceptChange i st = .ok (st', .found) ∧
      st'.buffer = st.buffer ∧
      st'.groups = st.groups ∧
      st'.overlay.aboveText = st.overlay.aboveText ∧
      st'.overlay.belowText = st.overlay.belowText ∧
      (∀ l : Int, (l < g.start_line ∨ g.end_line < l) →
        lookupAssoc l st'.overlay.signs = lookupAssoc l st.overlay.signs) ∧
      (∀ e ∈ st.overlay.highlights, e.2.1 ≠ i → e ∈ st'.overlay.highlights) ∧
      (∀ e ∈ st'.overlay.highlights, e ∈ st.overlay.highlights) := by
  obtain ⟨buf, gr, ovr⟩ := st
  have hg' : gr = some gs := hg
  subst hg'
  have hget := GetGroup_some buf gs ovr i g h0 hgroup
  refine ⟨_, AcceptChange_found _ i g hget, rfl, rfl, ?_, ?_, ?_, ?_, ?_⟩
  · simp only [acceptOverlay, ClearHighlights]
    exact (unplace_fold_rest _ ovr).1
  · simp only [acceptOverlay, ClearHighlights]
    exact (unplace_fold_rest _ ovr).2.1
  · intro l hl
    simp only [acceptOverlay, ClearHighlights]
    refine unplace_fold_signs_frame _ ovr l ?_
    intro l' hl'
    simp only [List.mem_map, List.mem_range] at hl'
    obtain ⟨k, hk, rfl⟩ := hl'
    omega
  · intro e he hne
    simp only [acceptOverlay, ClearHighlights, List.mem_filter]
    rw [(unplace_fold_rest _ ovr).2.2]
    refine ⟨⟨he, ?_⟩, ?_⟩ <;> simp [hne]
  · intro e he
    simp only [acceptOverlay, ClearHighlights, List.mem_filter] at he
    rw [(unplace_fold_rest _ ovr).2.2] at he
    exact he.1.1

/-- Witness for C9 at a concrete input. -/
theorem C9_witness :
    (0 : Int) ≤ 0 ∧
    (⟨["a", "b"], some [⟨2, 2, ["+ b"]⟩],
      ⟨[(2, "NewLine")], [], [], [(2, 0, "OllamaDiffAdd")]⟩⟩ :
        EditorState).groups = some [⟨2, 2, ["+ b"]⟩] ∧
    ∃ st', AcceptChange 0
        ⟨["a", "b"], some [⟨2, 2, ["+ b"]⟩],
          ⟨[(2, "NewLine")], [], [], [(2, 0, "OllamaDiffAdd")]⟩⟩ =
        .ok (st', .found) ∧
      st'.buffer = ["a", "b"] ∧
      st'.groups = some [⟨2, 2, ["+ b"]⟩] := by
  refine ⟨le_refl 0, rfl, ?_⟩
  obtain ⟨st', h1, h2, h3, -⟩ := C9_theorem
    ⟨["a", "b"], some [⟨2, 2, ["+ b"]⟩],
      ⟨[(2, "NewLine")], [], [], [(2, 0, "OllamaDiffAdd")]⟩⟩
    [⟨2, 2, ["+ b"]⟩] ⟨2, 2, ["+ b"]⟩ 0 (by decide) rfl rfl
  exact ⟨st', h1, h2, h3⟩

/-- C5, counterexample: the code keeps no per-group resolution state;
`AcceptChange` on an already accepted index succeeds again silently
(`CallResult.found`, no error), contrary to the claimed
`GroupNotFound`/invalid-state failure. -/
theorem C5_counterexample :
    AcceptChange 0 ⟨["a", "b"], some [⟨2, 2, ["+ b"]⟩],
        ⟨[(2, "NewLine")], [], [], [(2, 0, "OllamaDiffAdd")]⟩⟩ =
      .ok (⟨["a", "b"], some [⟨2, 2, ["+ b"]⟩],
        ⟨[(2, "")], [], [], []⟩⟩, .found) ∧
    AcceptChange 0 ⟨["a", "b"], some [⟨2, 2, ["+ b"]⟩],
        ⟨[(2, "")], [], [], []⟩⟩ =
      .ok (⟨["a", "b"], some [⟨2, 2, ["+ b"]⟩],
        ⟨[(2, "")], [], [], []⟩⟩, .found) := by
  refine ⟨rfl, rfl⟩

/-- C5, amended: a group stays in the registry regardless of how often it
has been accepted, and `AcceptChange` requires only that the index be in
range: accepting the same existing index twice succeeds both times (the
second call just re-clears the overlay), with no `GroupNotFound` or
invalid-state failure. -/
theorem C5_theorem (st : EditorState) (gs : List Group) (i : Int)
    (h0 : 0 ≤ i) (hg : st.groups = some gs) (hi : i.toNat < gs.length) :
    ∃ st' st'', AcceptChange i st = .ok (st', .found) ∧
      AcceptChange i st' = .ok (st'', .found) := by
  obtain ⟨g, hgroup⟩ : ∃ g, gs.get? i.toNat = some g := by
    rw [List.get?_eq_get hi]
    exact ⟨_, rfl⟩
  obtain ⟨buf, gr, ovr⟩ := st
  have hg' : gr = some gs := hg
  subst hg'
  have h1 := AcceptChange_found _ i g (GetGroup_some buf gs ovr i g h0 hgroup)
  exact ⟨_, _, h1, AcceptChange_found _ i g (GetGroup_some buf gs _ i g h0 hgroup)⟩

/-- Witness for C5 at a concrete input. -/
theorem C5_witness :
    (0 : Int) ≤ 0 ∧
    (⟨["a", "b"], some [⟨2, 2, ["+ b"]⟩],
      ⟨[(2, "NewLine")], [], [], [(2, 0, "OllamaDiffAdd")]⟩⟩ :
        EditorState).groups = some [⟨2, 2, ["+ b"]⟩] ∧
    (Int.toNat 0 < 1) ∧
    ∃ st' st'', AcceptChange 0
          ⟨["a", "b"], some [⟨2, 2, ["+ b"]⟩],
            ⟨[(2, "NewLine")], [], [], [(2, 0, "OllamaDiffAdd")]⟩⟩ =
        .ok (st', .found) ∧
      AcceptChange 0 st' = .ok (st'', .found) :=
  ⟨le_refl 0, rfl, by decide,
    C5_theorem ⟨["a", "b"], some [⟨2, 2, ["+ b"]⟩],
      ⟨[(2, "NewLine")], [], [], [(2, 0, "OllamaDiffAdd")]⟩⟩
      [⟨2, 2, ["+ b"]⟩] 0 (le_refl 0) rfl (by decide)⟩

/-! ### Claim C6: line-shift propagation of `RejectChange` -/

/-- Number of `'- '` lines (Delete records) in a change list. -/
def delCount : List String → Int
  | [] => 0
  | line :: rest =>
    (match line.data with | '-' :: ' ' :: _ => (1 : Int) | _ => 0) + delCount rest

/-- Number of `'+ '` lines (Insert records) in a change list. -/
def insCount : List String → Int
  | [] => 0
  | line :: rest =>
    (match line.data with | '+' :: ' ' :: _ => (1 : Int) | _ => 0) + insCount rest

theorem delCount_enc_ctx (t : String) (rest : List String) :
    delCount (encRec (.ctx t) :: rest) = delCount rest := by
  show (0 : Int) + delCount rest = delCount rest
  omega

theorem delCount_enc_del (t : String) (rest : List String) :
    delCount (encRec (.del t) :: rest) = 1 + delCount rest := rfl

theorem delCount_enc_ins (t : String) (rest : List String) :
    delCount (encRec (.ins t) :: rest) = delCount rest := by
  show (0 : Int) + delCount rest = delCount rest
  omega

theorem insCount_enc_ctx (t : String) (rest : List String) :
    insCount (encRec (.ctx t) :: rest) = insCount rest := by
  show (0 : Int) + insCount rest = insCount rest
  omega

theorem insCount_enc_del (t : String) (rest : List String) :
    insCount (encRec (.del t) :: rest) = insCount rest := by
  show (0 : Int) + insCount rest = insCount rest
  omega

theorem insCount_enc_ins (t : String) (rest : List String) :
    insCount (encRec (.ins t) :: rest) = 1 + insCount rest := rfl

theorem rejectLoop_enc_del (t : String) (rest : List String)
    (buf : List String) (ov : Overlay) (lineno restored : Int) :
    rejectLoop (encRec (.del t) :: rest) buf ov lineno restored =
      rejectLoop rest (InsertLine lineno t buf) (UnplaceSign lineno ov)
        (lineno + 1) (restored + 1) := rfl

theorem rejectLoop_enc_ctx (t : String) (rest : List String)
    (buf : List String) (ov : Overlay) (lineno restored : Int) :
    rejectLoop (encRec (.ctx t) :: rest) buf ov lineno restored =
      rejectLoop rest buf (UnplaceSign lineno ov) lineno restored := rfl

theorem rejectLoop_enc_ins (t old : String) (rest : List String)
    (buf buf' : List String) (ov : Overlay) (lineno restored : Int)
    (h : DeleteLine lineno buf = some (old, buf')) :
    rejectLoop (encRec (.ins t) :: rest) buf ov lineno restored =
      if old ≠ t then
        .error (.rejectMismatch lineno t old, buf', UnplaceSign lineno ov)
      else rejectLoop rest buf' (UnplaceSign lineno ov) lineno (restored - 1) := by
  have e : rejectLoop (encRec (.ins t) :: rest) buf ov lineno restored =
      (match DeleteLine lineno buf with
       | none => .error (.indexError, buf, UnplaceSign lineno ov)
       | some (old, buf') =>
         if old ≠ t then
           .error (.rejectMismatch lineno t old, buf', UnplaceSign lineno ov)
         else rejectLoop rest buf' (UnplaceSign lineno ov) lineno
           (restored - 1)) := rfl
  rw [e, h]

theorem rejectLoop_enc_ins_none (t : String) (rest : List String)
    (buf : List String) (ov : Overlay) (lineno restored : Int)
    (h : DeleteLine lineno buf = none) :
    rejectLoop (encRec (.ins t) :: rest) buf ov lineno restored =
      .error (.indexError, buf, UnplaceSign lineno ov) := by
  have e : rejectLoop (encRec (.ins t) :: rest) buf ov lineno restored =
      (match DeleteLine lineno buf with
       | none => .error (.indexError, buf, UnplaceSign lineno ov)
       | some (old, buf') =>
         if old ≠ t then
           .error (.rejectMismatch lineno t old, buf', UnplaceSign lineno ov)
         else rejectLoop rest buf' (UnplaceSign lineno ov) lineno
           (restored - 1)) := rfl
  rw [e, h]

/-- A successful undo loop always returns
`restored = restored₀ + #Delete - #Insert` of the processed change lines. -/
theorem rejectLoop_enc_restored : ∀ (rs : List Rec) (buf : List String)
    (ov : Overlay) (lineno restored : Int)
    (buf' : List String) (ov' : Overlay) (ln' restored' : Int),
    rejectLoop (rs.map encRec) buf ov lineno restored
      = .ok (buf', ov', ln', restored') →
    restored' = restored + delCount (rs.map encRec) - insCount (rs.map encRec) := by
  intro rs
  induction rs with
  | nil =>
    intro buf ov lineno restored buf' ov' ln' restored' h
    simp only [List.map_nil, rejectLoop, Except.ok.injEq, Prod.mk.injEq] at h
    simp only [delCount, insCount]
    omega
  | cons r rest ih =>
    intro buf ov lineno restored buf' ov' ln' restored' h
    cases r with
    | ctx t =>
      rw [List.map_cons, rejectLoop_enc_ctx] at h
      rw [List.map_cons, delCount_enc_ctx, insCount_enc_ctx]
      exact ih _ _ _ _ _ _ _ _ h
    | del t =>
      rw [List.map_cons, rejectLoop_enc_del] at h
      rw [List.map_cons, delCount_enc_del, insCount_enc_del]
      have := ih _ _ _ _ _ _ _ _ h
      omega
    | ins t =>
      rw [List.map_cons] at h
      cases hd : DeleteLine lineno buf with
      | none =>
        rw [rejectLoop_enc_ins_none t _ _ _ _ _ hd] at h
        exact absurd h (by simp)
      | some p =>
        obtain ⟨old, buf₂⟩ := p
        rw [rejectLoop_enc_ins t old _ _ buf₂ _ _ _ hd] at h
        by_cases ho : old = t
        · rw [if_neg (by simp [ho])] at h
          rw [List.map_cons, delCount_enc_ins, insCount_enc_ins]
          have := ih _ _ _ _ _ _ _ _ h
          omega
        · rw [if_pos ho] at h
          exact absurd h (by simp)

theorem shiftAfter_length (k r : Int) : ∀ (gs : List Group) (j0 : Int),
    (shiftAfter k r j0 gs).length = gs.length := by
  intro gs
  induction gs with
  | nil => intro j0; rfl
  | cons g rest ih => intro j0; simp [shiftAfter, ih]

theorem shiftAfter_get? (k r : Int) : ∀ (gs : List Group) (j0 : Int) (j : Nat),
    (shiftAfter k r j0 gs).get? j = (gs.get? j).map (fun g =>
      if k < j0 + j then ⟨g.start_line + r, g.end_line + r, g.changes⟩
      else g) := by
  intro gs
  induction gs with
  | nil => intro j0 j; simp [shiftAfter]
  | cons g rest ih =>
    intro j0 j
    cases j with
    | zero =>
      show ((if k < j0 then (⟨g.start_line + r, g.end_line + r, g.changes⟩ : Group) else g) :: shiftAfter k r (j0 + 1) rest).get? 0 = _
      simp only [List.get?_cons_zero, Option.map_some, Nat.cast_zero, add_zero]
      by_cases hk : k < j0
      · simp [hk]
      · simp [hk]
    | succ n =>
      show List.get? (_ :: shiftAfter k r (j0 + 1) rest) (n + 1) = _
      rw [List.get?_cons_succ, List.get?_cons_succ, ih (j0 + 1) n]
      have harith : j0 + 1 + (n : Int) = j0 + ((n : Nat) + 1 : Nat) := by
        push_cast
        ring
      rw [harith]

/-- Reduction of `RejectChange` on a registered group to its undo loop. -/
theorem RejectChange_eq (buf : List String) (gs : List Group) (ovr : Overlay)
    (i : Int) (g : Group) (h0 : 0 ≤ i) (hg : gs.get? i.toNat = some g) :
    RejectChange i ⟨buf, some gs, ovr⟩ =
      (match rejectLoop g.changes buf
          (ClearHighlights i "OllamaDiffDel"
            (ClearHighlights i "OllamaDiffAdd" ovr)) g.start_line 0 with
       | .error (e, b, o) => .error (e, ⟨b, some gs, o⟩)
       | .ok (b, o, _, restored) =>
         .ok (⟨b, some (shiftAfter i restored 0 gs), o⟩, .found)) := by
  have hlt : i.toNat < gs.length := by
    by_contra hc
    rw [List.get?_eq_none.mpr (by omega)] at hg
    exact absurd hg (by simp)
  have e : RejectChange i ⟨buf, some gs, ovr⟩ =
      (if i < 0 ∨ (gs.length : Int) ≤ i then .ok (⟨buf, some gs, ovr⟩, .notFound)
       else
        match gs.get? i.toNat with
        | none => .ok (⟨buf, some gs, ovr⟩, .notFound)
        | some group =>
          match rejectLoop group.changes buf
              (ClearHighlights i "OllamaDiffDel"
                (ClearHighlights i "OllamaDiffAdd" ovr)) group.start_line 0 with
          | .error (e, b, o) => .error (e, ⟨b, some gs, o⟩)
          | .ok (b, o, _, restored) =>
            .ok (⟨b, some (shiftAfter i restored 0 gs), o⟩, .found)) := rfl
  rw [e, if_neg (by push_neg; omega), hg]

theorem RejectChange_found (buf : List String) (gs : List Group)
    (ovr : Overlay) (i : Int) (g : Group) (h0 : 0 ≤ i)
    (hg : gs.get? i.toNat = some g) (b : List String) (o : Overlay)
    (ln restored : Int)
    (hloop : rejectLoop g.changes buf
        (ClearHighlights i "OllamaDiffDel"
          (ClearHighlights i "OllamaDiffAdd" ovr)) g.start_line 0
      = .ok (b, o, ln, restored)) :
    RejectChange i ⟨buf, some gs, ovr⟩
      = .ok (⟨b, some (shiftAfter i restored 0 gs), o⟩, .found) := by
  rw [RejectChange_eq buf gs ovr i g h0 hg, hloop]

theorem RejectChange_error (buf : List String) (gs : List Group)
    (ovr : Overlay) (i : Int) (g : Group) (h0 : 0 ≤ i)
    (hg : gs.get? i.toNat = some g) (e : PyErr) (b : List String) (o : Overlay)
    (hloop : rejectLoop g.changes buf
        (ClearHighlights i "OllamaDiffDel"
          (ClearHighlights i "OllamaDiffAdd" ovr)) g.start_line 0
      = .error (e, b, o)) :
    RejectChange i ⟨buf, some gs, ovr⟩ = .error (e, ⟨b, some gs, o⟩) := by
  rw [RejectChange_eq buf gs ovr i g h0 hg, hloop]

/-- C6: when `RejectChange(index)` succeeds on a registered group, every
group at a position greater than `index` has both `start_line` and
`end_line` increased by exactly `restored = #Delete - #Insert` of the
rejected group's records, and every group at a position less than `index`
(and the rejected group itself) is left unchanged. -/
theorem C6_theorem (st : EditorState) (gs : List Group) (g : Group) (i : Int)
    (rs : List Rec) (st' : EditorState) (cr : CallResult)
    (h0 : 0 ≤ i) (hg : st.groups = some gs)
    (hgroup : gs.get? i.toNat = some g)
    (henc : g.changes = rs.map encRec)
    (hrej : RejectChange i st = .ok (st', cr)) :
    ∃ gs', st'.groups = some gs' ∧ gs'.length = gs.length ∧
      (∀ j : Nat, (j : Int) ≤ i → gs'.get? j = gs.get? j) ∧
      (∀ j : Nat, i < (j : Int) → gs'.get? j = (gs.get? j).map (fun h =>
        ⟨h.start_line + (delCount g.changes - insCount g.changes),
         h.end_line + (delCount g.changes - insCount g.changes),
         h.changes⟩)) := by
  obtain ⟨buf, gr, ovr⟩ := st
  have hg' : gr = some gs := hg
  subst hg'
  cases hloop : rejectLoop g.changes buf
      (ClearHighlights i "OllamaDiffDel"
        (ClearHighlights i "OllamaDiffAdd" ovr)) g.start_line 0 with
  | error e =>
    obtain ⟨e, b, o⟩ := e
    rw [RejectChange_error buf gs ovr i g h0 hgroup e b o hloop] at hrej
    exact absurd hrej (by simp)
  | ok out =>
    obtain ⟨b, o, ln', restored⟩ := out
    rw [RejectChange_found buf gs ovr i g h0 hgroup b o ln' restored hloop] at hrej
    have hst : st' = ⟨b, some (shiftAfter i restored 0 gs), o⟩ := by
      have := hrej
      simp only [Except.ok.injEq, Prod.mk.injEq] at this
      exact this.1.symm
    have hres : restored = delCount g.changes - insCount g.changes := by
      rw [henc] at hloop
      have := rejectLoop_enc_restored rs _ _ _ _ _ _ _ _ hloop
      rw [henc]
      omega
    subst hst
    refine ⟨shiftAfter i restored 0 gs, rfl, shiftAfter_length i restored gs 0, ?_, ?_⟩
    · intro j hj
      rw [shiftAfter_get? i restored gs 0 j]
      cases hgj : gs.get? j with
      | none => rfl
      | some h =>
        simp only [Option.map_some']
        rw [if_neg (by omega)]
    · intro j hj
      rw [shiftAfter_get? i restored gs 0 j, hres]
      cases hgj : gs.get? j with
      | none => rfl
      | some h =>
        simp only [Option.map_some']
        rw [if_pos (by omega)]

/-- Witness for C6 at a concrete input. -/
theorem C6_witness :
    (0 : Int) ≤ 0 ∧
    (⟨["a", "x", "b", "c", "y"], some [⟨2, 3, ["+ x"]⟩, ⟨5, 5, ["+ y"]⟩],
      ⟨[], [], [], []⟩⟩ : EditorState).groups
        = some [⟨2, 3, ["+ x"]⟩, ⟨5, 5, ["+ y"]⟩] ∧
    (["+ x"] = [encRec (.ins "x")]) ∧
    ∃ gs', (⟨["a", "b", "c", "y"],
        some [⟨2, 3, ["+ x"]⟩, ⟨4, 4, ["+ y"]⟩],
        ⟨[(2, "")], [], [], []⟩⟩ : EditorState).groups = some gs' ∧
      gs'.length = 2 ∧
      (∀ j : Nat, (j : Int) ≤ 0 →
        gs'.get? j = [(⟨2, 3, ["+ x"]⟩ : Group), ⟨5, 5, ["+ y"]⟩].get? j) ∧
      (∀ j : Nat, (0 : Int) < (j : Int) →
        gs'.get? j = ([(⟨2, 3, ["+ x"]⟩ : Group), ⟨5, 5, ["+ y"]⟩].get? j).map
          (fun h => ⟨h.start_line + (delCount ["+ x"] - insCount ["+ x"]),
            h.end_line + (delCount ["+ x"] - insCount ["+ x"]), h.changes⟩)) := by
  refine ⟨le_refl 0, rfl, rfl, ?_⟩
  exact C6_theorem
    ⟨["a", "x", "b", "c", "y"], some [⟨2, 3, ["+ x"]⟩, ⟨5, 5, ["+ y"]⟩],
      ⟨[], [], [], []⟩⟩
    [⟨2, 3, ["+ x"]⟩, ⟨5, 5, ["+ y"]⟩] ⟨2, 3, ["+ x"]⟩ 0 [.ins "x"]
    ⟨["a", "b", "c", "y"], some [⟨2, 3, ["+ x"]⟩, ⟨4, 4, ["+ y"]⟩],
      ⟨[(2, "")], [], [], []⟩⟩ .found
    (le_refl 0) rfl rfl rfl rfl

/-! ### Claim C7: mismatch detection on reject -/

/-- A change record: an Insert or Delete, never Context. -/
def isChg : Rec → Bool
  | .ctx _ => false
  | _ => true

/-- If the buffer lines covered by a group's Insert records do not all equal
the record texts, the undo loop raises the reject-mismatch exception. -/
theorem rejectLoop_enc_mismatch : ∀ rs : List Rec,
    (∀ r ∈ rs, isChg r = true) →
    ∀ (v A Z : List String) (ov : Overlay) (restored : Int),
    v.length = (recNewRaw rs).length → v ≠ recNewRaw rs →
    ∃ ln ex ac b o,
      rejectLoop (rs.map encRec) (A ++ v ++ Z) ov ((A.length : Int) + 1)
          restored
        = .error (.rejectMismatch ln ex ac, b, o) := by
  intro rs
  induction rs with
  | nil =>
    intro _ v A Z ov restored hlen hne
    rw [show recNewRaw [] = [] from rfl] at hlen hne
    exact absurd (List.length_eq_zero.mp hlen) hne
  | cons r rest ih =>
    intro hchg v A Z ov restored hlen hne
    cases r with
    | ctx t =>
      have hfalse := hchg (.ctx t) (by simp)
      simp [isChg] at hfalse
    | del t =>
      rw [show recNewRaw (Rec.del t :: rest) = recNewRaw rest from rfl]
        at hlen hne
      rw [List.map_cons, rejectLoop_enc_del]
      rw [show A ++ v ++ Z = A ++ (v ++ Z) by simp, InsertLine_at]
      rw [show A ++ t :: (v ++ Z) = (A ++ [t]) ++ v ++ Z by simp]
      rw [show (A.length : Int) + 1 + 1 = (((A ++ [t]).length : Int)) + 1 by simp]
      exact ih (fun r hr => hchg r (by simp [hr])) v (A ++ [t]) Z _ _ hlen hne
    | ins t =>
      rw [show recNewRaw (Rec.ins t :: rest) = t :: recNewRaw rest from rfl]
        at hlen hne
      cases v with
      | nil => exact absurd hlen (by simp)
      | cons v0 v' =>
        rw [List.map_cons]
        rw [show A ++ (v0 :: v') ++ Z = A ++ v0 :: (v' ++ Z) by simp]
        rw [rejectLoop_enc_ins t v0 _ _ (A ++ (v' ++ Z)) _ _ _
          (DeleteLine_at A (v' ++ Z) v0)]
        by_cases hv : v0 = t
        · rw [if_neg (by simp [hv])]
          subst hv
          rw [show A ++ (v' ++ Z) = A ++ v' ++ Z by simp]
          exact ih (fun r hr => hchg r (by simp [hr])) v' A Z _ _
            (by simpa using hlen) (by intro hc; exact hne (by rw [hc]))
        · rw [if_pos (by simp [hv])]
          exact ⟨(A.length : Int) + 1, t, v0, A ++ (v' ++ Z),
            UnplaceSign ((A.length : Int) + 1) ov, rfl⟩

/-- C7, amended: if the buffer was mutated between apply and reject so that
the lines covered by a group's Insert records no longer all equal the
record texts, `RejectChange` fails with the reject-mismatch exception
(rather than silently proceeding); the undo steps already performed before
the failing record remain in the buffer. -/
theorem C7_theorem (st : EditorState) (gs : List Group) (g : Group) (i : Int)
    (rs : List Rec) (v A Z : List String)
    (h0 : 0 ≤ i) (hg : st.groups = some gs)
    (hgroup : gs.get? i.toNat = some g)
    (henc : g.changes = rs.map encRec) (hchg : ∀ r ∈ rs, isChg r = true)
    (hbuf : st.buffer = A ++ v ++ Z)
    (hstart : g.start_line = (A.length : Int) + 1)
    (hlen : v.length = (recNewRaw rs).length) (hne : v ≠ recNewRaw rs) :
    ∃ ln ex ac st',
      RejectChange i st = .error (.rejectMismatch ln ex ac, st') := by
  obtain ⟨buf, gr, ovr⟩ := st
  have hg' : gr = some gs := hg
  subst hg'
  have hbuf' : buf = A ++ v ++ Z := hbuf
  subst hbuf'
  obtain ⟨ln, ex, ac, b, o, hloop⟩ := rejectLoop_enc_mismatch rs hchg v A Z
    (ClearHighlights i "OllamaDiffDel"
      (ClearHighlights i "OllamaDiffAdd" ovr)) 0 hlen hne
  rw [← henc, ← hstart] at hloop
  exact ⟨ln, ex, ac, ⟨b, some gs, o⟩,
    RejectChange_error _ gs ovr i g h0 hgroup _ b o hloop⟩

/-- C7, counterexample to the original claim's "buffer is not left altered":
group `["- a", "+ x"]` applied over `old = ["a"]` gives buffer `["x"]`;
after an external edit to `["y"]`, rejecting re-inserts `"a"`, deletes the
mismatching `"y"`, and only then raises — the failing call leaves the buffer
at `["a"]`, not `["y"]`. -/
theorem C7_counterexample :
    RejectChange 0 ⟨["y"], some [⟨1, 1, ["- a", "+ x"]⟩], ⟨[], [], [], []⟩⟩ =
      .error (.rejectMismatch 2 "x" "y",
        ⟨["a"], some [⟨1, 1, ["- a", "+ x"]⟩],
          ⟨[(1, ""), (2, "")], [], [], []⟩⟩) ∧
    (["a"] ≠ ["y"]) := by
  refine ⟨rfl, by decide⟩

/-- Witness for C7 at a concrete input. -/
theorem C7_witness :
    (0 : Int) ≤ 0 ∧
    (["- a", "+ x"] = [Rec.del "a", Rec.ins "x"].map encRec) ∧
    (["y"] ≠ recNewRaw [Rec.del "a", Rec.ins "x"]) ∧
    ∃ ln ex ac st',
      RejectChange 0 ⟨["y"], some [⟨1, 1, ["- a", "+ x"]⟩],
          ⟨[], [], [], []⟩⟩
        = .error (.rejectMismatch ln ex ac, st') := by
  refine ⟨le_refl 0, rfl, by decide, ?_⟩
  exact C7_theorem
    ⟨["y"], some [⟨1, 1, ["- a", "+ x"]⟩], ⟨[], [], [], []⟩⟩
    [⟨1, 1, ["- a", "+ x"]⟩] ⟨1, 1, ["- a", "+ x"]⟩ 0
    [Rec.del "a", Rec.ins "x"] ["y"] [] []
    (le_refl 0) rfl rfl rfl (by decide) rfl rfl (by decide) (by decide)

/-! ### Segment decomposition of a script

A script is an alternation of context records and maximal runs of change
records; `group_diff` produces one group per run.  The reasoning for C1 and
C10 decomposes scripts into such segments. -/

inductive Seg where
  | ctx (t : String)
  | run (rs : List Rec)
deriving DecidableEq, Repr

def segsToRecs : List Seg → List Rec
  | [] => []
  | .ctx t :: rest => .ctx t :: segsToRecs rest
  | .run rs :: rest => rs ++ segsToRecs rest

/-- Split a script into context records and maximal change runs. -/
def parseSegs : List Rec → List Seg
  | [] => []
  | .ctx t :: rest => .ctx t :: parseSegs rest
  | .del t :: rest =>
    match parseSegs rest with
    | .run rs :: more => .run (.del t :: rs) :: more
    | segs => .run [.del t] :: segs
  | .ins t :: rest =>
    match parseSegs rest with
    | .run rs :: more => .run (.ins t :: rs) :: more
    | segs => .run [.ins t] :: segs

/-- Well-formed segment lists: runs are non-empty, contain only change
records, and no two runs are adjacent (maximality). -/
def segsWF : List Seg → Prop
  | [] => True
  | .ctx _ :: rest => segsWF rest
  | .run rs :: rest => rs ≠ [] ∧ (∀ r ∈ rs, isChg r = true) ∧
      (match rest with | .run _ :: _ => False | _ => True) ∧ segsWF rest

theorem segsToRecs_parseSegs : ∀ S : List Rec, segsToRecs (parseSegs S) = S := by
  intro S
  induction S with
  | nil => rfl
  | cons r rest ih =>
    cases r with
    | ctx t => simp only [parseSegs, segsToRecs, ih]
    | del t =>
      show segsToRecs (match parseSegs rest with
        | .run rs :: more => .run (.del t :: rs) :: more
        | segs => .run [.del t] :: segs) = _
      cases hps : parseSegs rest with
      | nil => rw [hps] at ih; simp only [segsToRecs] at ih ⊢; rw [← ih]; rfl
      | cons s more =>
        cases s with
        | ctx u =>
          rw [hps] at ih
          show segsToRecs (.run [.del t] :: .ctx u :: more) = _
          simp only [segsToRecs] at ih ⊢
          rw [ih]
          rfl
        | run rs =>
          rw [hps] at ih
          show segsToRecs (.run (.del t :: rs) :: more) = _
          simp only [segsToRecs] at ih ⊢
          rw [← ih]
          rfl
    | ins t =>
      show segsToRecs (match parseSegs rest with
        | .run rs :: more => .run (.ins t :: rs) :: more
        | segs => .run [.ins t] :: segs) = _
      cases hps : parseSegs rest with
      | nil => rw [hps] at ih; simp only [segsToRecs] at ih ⊢; rw [← ih]; rfl
      | cons s more =>
        cases s with
        | ctx u =>
          rw [hps] at ih
          show segsToRecs (.run [.ins t] :: .ctx u :: more) = _
          simp only [segsToRecs] at ih ⊢
          rw [ih]
          rfl
        | run rs =>
          rw [hps] at ih
          show segsToRecs (.run (.ins t :: rs) :: more) = _
          simp only [segsToRecs] at ih ⊢
          rw [← ih]
          rfl

theorem segsWF_parseSegs : ∀ S : List Rec, segsWF (parseSegs S) := by
  intro S
  induction S with
  | nil => trivial
  | cons r rest ih =>
    cases r with
    | ctx t => exact ih
    | del t =>
      show segsWF (match parseSegs rest with
        | .run rs :: more => .run (.del t :: rs) :: more
        | segs => .run [.del t] :: segs)
      cases hps : parseSegs rest with
      | nil => exact ⟨by simp, by simp [isChg], trivial, trivial⟩
      | cons s more =>
        rw [hps] at ih
        cases s with
        | ctx u =>
          show segsWF (.run [.del t] :: .ctx u :: more)
          exact ⟨by simp, by simp [isChg], trivial, ih⟩
        | run rs =>
          show segsWF (.run (.del t :: rs) :: more)
          obtain ⟨hne, hchg, hnorun, hwf⟩ := ih
          refine ⟨by simp, ?_, hnorun, hwf⟩
          intro r hr
          rcases List.mem_cons.mp hr with h | h
          · subst h; simp [isChg]
          · exact hchg r h
    | ins t =>
      show segsWF (match parseSegs rest with
        | .run rs :: more => .run (.ins t :: rs) :: more
        | segs => .run [.ins t] :: segs)
      cases hps : parseSegs rest with
      | nil => exact ⟨by simp, by simp [isChg], trivial, trivial⟩
      | cons s more =>
        rw [hps] at ih
        cases s with
        | ctx u =>
          show segsWF (.run [.ins t] :: .ctx u :: more)
          exact ⟨by simp, by simp [isChg], trivial, ih⟩
        | run rs =>
          show segsWF (.run (.ins t :: rs) :: more)
          obtain ⟨hne, hchg, hnorun, hwf⟩ := ih
          refine ⟨by simp, ?_, hnorun, hwf⟩
          intro r hr
          rcases List.mem_cons.mp hr with h | h
          · subst h; simp [isChg]
          · exact hchg r h

/-- Buffer content of a partially rejected proposal: for each run, its
applied lines (`recNewR`) while pending, its original lines (`recOld`) once
rejected.  `D k = true` means run number `k` has been rejected; `k` is the
number of the first run of the list. -/
def segsBufD (D : Nat → Bool) : List Seg → Nat → List String
  | [], _ => []
  | .ctx t :: rest, k => t :: segsBufD D rest k
  | .run rs :: rest, k =>
    (if D k then recOld rs else recNewR rs) ++ segsBufD D rest (k + 1)

/-- `end_line` adjustment: a run closed at script end records the cursor
minus one; a run closed by a following context record records the cursor
itself. -/
def endAdj : List Seg → Int
  | [] => 1
  | _ => 0

/-- Registry content of a partially rejected proposal: one group per run,
with the spans shifted by the rejections recorded in `D`.  `s` is the
current buffer line of the next segment. -/
def groupsD (D : Nat → Bool) : List Seg → Nat → Int → List Group
  | [], _, _ => []
  | .ctx _ :: rest, k, s => groupsD D rest k (s + 1)
  | .run rs :: rest, k, s =>
    ⟨s, s + ((recNewR rs).length : Int) - endAdj rest, rs.map encRec⟩ ::
      groupsD D rest (k + 1)
        (s + (if D k then ((recOld rs).length : Int)
          else ((recNewR rs).length : Int)))

def numRuns : List Seg → Nat
  | [] => 0
  | .ctx _ :: rest => numRuns rest
  | .run _ :: rest => numRuns rest + 1

def nthRun : List Seg → Nat → Option (List Rec)
  | [], _ => none
  | .ctx _ :: rest, i => nthRun rest i
  | .run rs :: _, 0 => some rs
  | .run _ :: rest, i + 1 => nthRun rest i

/-- Ins-texts of each run are `rstrip`-fixed (holds when the new lines carry
no trailing whitespace). -/
def cleanSegs : List Seg → Prop
  | [] => True
  | .ctx _ :: rest => cleanSegs rest
  | .run rs :: rest => (∀ t ∈ recNewRaw rs, pyRstrip t = t) ∧ cleanSegs rest

theorem nthRun_isSome : ∀ (segs : List Seg) (i : Nat), i < numRuns segs →
    ∃ rs, nthRun segs i = some rs := by
  intro segs
  induction segs with
  | nil => intro i h; simp [numRuns] at h
  | cons s rest ih =>
    intro i h
    cases s with
    | ctx t => exact ih i h
    | run rs =>
      cases i with
      | zero => exact ⟨rs, rfl⟩
      | succ n => exact ih n (by simp [numRuns] at h; omega)

theorem groupsD_length (D : Nat → Bool) : ∀ (segs : List Seg) (k : Nat) (s : Int),
    (groupsD D segs k s).length = numRuns segs := by
  intro segs
  induction segs with
  | nil => intro k s; rfl
  | cons sg rest ih =>
    intro k s
    cases sg with
    | ctx t => exact ih k (s + 1)
    | run rs => simp [groupsD, numRuns, ih]

theorem segsBufD_congr (D D' : Nat → Bool) : ∀ (segs : List Seg) (k : Nat),
    (∀ j, k ≤ j → j < k + numRuns segs → D j = D' j) →
    segsBufD D segs k = segsBufD D' segs k := by
  intro segs
  induction segs with
  | nil => intro k _; rfl
  | cons sg rest ih =>
    intro k h
    cases sg with
    | ctx t =>
      simp only [segsBufD]
      rw [ih k (fun j hj1 hj2 => h j hj1 (by simp only [numRuns] at hj2 ⊢; omega))]
    | run rs =>
      simp only [segsBufD]
      rw [h k (Nat.le_refl k) (by simp only [numRuns]; omega)]
      rw [ih (k + 1) (fun j hj1 hj2 => h j (by omega)
        (by simp only [numRuns] at hj2 ⊢; omega))]

theorem groupsD_congr (D D' : Nat → Bool) : ∀ (segs : List Seg) (k : Nat) (s : Int),
    (∀ j, k ≤ j → j < k + numRuns segs → D j = D' j) →
    groupsD D segs k s = groupsD D' segs k s := by
  intro segs
  induction segs with
  | nil => intro k s _; rfl
  | cons sg rest ih =>
    intro k s h
    cases sg with
    | ctx t =>
      simp only [groupsD]
      rw [ih k (s + 1) (fun j hj1 hj2 => h j hj1
        (by simp only [numRuns] at hj2 ⊢; omega))]
    | run rs =>
      simp only [groupsD]
      rw [h k (Nat.le_refl k) (by simp only [numRuns]; omega)]
      rw [ih (k + 1) _ (fun j hj1 hj2 => h j (by omega)
        (by simp only [numRuns] at hj2 ⊢; omega))]

theorem groupsD_shift (D : Nat → Bool) : ∀ (segs : List Seg) (k : Nat) (s δ : Int),
    groupsD D segs k (s + δ) = (groupsD D segs k s).map
      (fun g => ⟨g.start_line + δ, g.end_line + δ, g.changes⟩) := by
  intro segs
  induction segs with
  | nil => intro k s δ; rfl
  | cons sg rest ih =>
    intro k s δ
    cases sg with
    | ctx t =>
      simp only [groupsD]
      rw [show s + δ + 1 = (s + 1) + δ by ring, ih]
    | run rs =>
      simp only [groupsD, List.map_cons]
      have hc : ∀ a : Int, s + δ + a = (s + a) + δ := fun a => by ring
      refine congrArg₂ List.cons ?_ ?_
      · simp only [Group.mk.injEq, and_true, true_and]
        ring
      · rw [hc, ih]

theorem segsBufD_constk (b : Bool) : ∀ (segs : List Seg) (k k' : Nat),
    segsBufD (fun _ => b) segs k = segsBufD (fun _ => b) segs k' := by
  intro segs
  induction segs with
  | nil => intro k k'; rfl
  | cons sg rest ih =>
    intro k k'
    cases sg with
    | ctx t => simp only [segsBufD]; rw [ih k k']
    | run rs => simp only [segsBufD]; rw [ih (k + 1) (k' + 1)]

theorem groupsD_constk (b : Bool) : ∀ (segs : List Seg) (k k' : Nat) (s : Int),
    groupsD (fun _ => b) segs k s = groupsD (fun _ => b) segs k' s := by
  intro segs
  induction segs with
  | nil => intro k k' s; rfl
  | cons sg rest ih =>
    intro k k' s
    cases sg with
    | ctx t => simp only [groupsD]; rw [ih k k']
    | run rs => simp only [groupsD]; rw [ih (k + 1) (k' + 1)]

theorem segsBufD_parse_true : ∀ (S : List Rec) (k : Nat),
    segsBufD (fun _ => true) (parseSegs S) k = recOld S := by
  intro S
  induction S with
  | nil => intro k; rfl
  | cons r rest ih =>
    intro k
    cases r with
    | ctx t =>
      show t :: segsBufD (fun _ => true) (parseSegs rest) k = t :: recOld rest
      rw [ih k]
    | del t =>
      show segsBufD (fun _ => true) (match parseSegs rest with
        | .run rs :: more => .run (.del t :: rs) :: more
        | segs => .run [.del t] :: segs) k = t :: recOld rest
      cases hps : parseSegs rest with
      | nil =>
        rw [hps] at ih
        show recOld [Rec.del t] ++ segsBufD (fun _ => true) [] (k + 1) = _
        simp only [segsBufD] at ih ⊢
        rw [← ih k]
        rfl
      | cons sg more =>
        rw [hps] at ih
        cases sg with
        | ctx u =>
          show recOld [Rec.del t] ++
            segsBufD (fun _ => true) (.ctx u :: more) (k + 1) = _
          have := ih (k + 1)
          simp only [recOld, List.cons_append, List.nil_append]
          rw [this]
        | run rs =>
          show recOld (Rec.del t :: rs) ++
            segsBufD (fun _ => true) more (k + 1) = _
          have hthis := ih k
          simp only [segsBufD, if_pos] at hthis
          simp only [recOld, List.cons_append]
          rw [hthis]
    | ins t =>
      show segsBufD (fun _ => true) (match parseSegs rest with
        | .run rs :: more => .run (.ins t :: rs) :: more
        | segs => .run [.ins t] :: segs) k = recOld rest
      cases hps : parseSegs rest with
      | nil =>
        rw [hps] at ih
        show recOld [Rec.ins t] ++ segsBufD (fun _ => true) [] (k + 1) = _
        simp only [segsBufD] at ih ⊢
        rw [← ih k]
        rfl
      | cons sg more =>
        rw [hps] at ih
        cases sg with
        | ctx u =>
          show recOld [Rec.ins t] ++
            segsBufD (fun _ => true) (.ctx u :: more) (k + 1) = _
          have := ih (k + 1)
          simp only [recOld, List.nil_append]
          rw [this]
        | run rs =>
          show recOld (Rec.ins t :: rs) ++
            segsBufD (fun _ => true) more (k + 1) = _
          have hthis := ih k
          simp only [segsBufD, if_pos] at hthis
          simp only [recOld]
          rw [hthis]

theorem segsBufD_parse_false : ∀ (S : List Rec) (k : Nat),
    segsBufD (fun _ => false) (parseSegs S) k = recNewR S := by
  intro S
  induction S with
  | nil => intro k; rfl
  | cons r rest ih =>
    intro k
    cases r with
    | ctx t =>
      show t :: segsBufD (fun _ => false) (parseSegs rest) k = t :: recNewR rest
      rw [ih k]
    | del t =>
      show segsBufD (fun _ => false) (match parseSegs rest with
        | .run rs :: more => .run (.del t :: rs) :: more
        | segs => .run [.del t] :: segs) k = recNewR rest
      cases hps : parseSegs rest with
      | nil =>
        rw [hps] at ih
        show recNewR [Rec.del t] ++ segsBufD (fun _ => false) [] (k + 1) = _
        simp only [segsBufD] at ih ⊢
        rw [← ih k]
        rfl
      | cons sg more =>
        rw [hps] at ih
        cases sg with
        | ctx u =>
          show recNewR [Rec.del t] ++
            segsBufD (fun _ => false) (.ctx u :: more) (k + 1) = _
          have := ih (k + 1)
          simp only [recNewR, List.nil_append]
          rw [this]
        | run rs =>
          show recNewR (Rec.del t :: rs) ++
            segsBufD (fun _ => false) more (k + 1) = _
          have hthis := ih k
          simp only [segsBufD] at hthis
          rw [if_neg (by simp)] at hthis
          simp only [recNewR]
          rw [hthis]
    | ins t =>
      show segsBufD (fun _ => false) (match parseSegs rest with
        | .run rs :: more => .run (.ins t :: rs) :: more
        | segs => .run [.ins t] :: segs) k
          = pyRstrip t :: recNewR rest
      cases hps : parseSegs rest with
      | nil =>
        rw [hps] at ih
        show recNewR [Rec.ins t] ++ segsBufD (fun _ => false) [] (k + 1) = _
        simp only [segsBufD] at ih ⊢
        rw [← ih k]
        rfl
      | cons sg more =>
        rw [hps] at ih
        cases sg with
        | ctx u =>
          show recNewR [Rec.ins t] ++
            segsBufD (fun _ => false) (.ctx u :: more) (k + 1) = _
          have := ih (k + 1)
          simp only [recNewR, List.cons_append, List.nil_append]
          rw [this]
        | run rs =>
          show recNewR (Rec.ins t :: rs) ++
            segsBufD (fun _ => false) more (k + 1) = _
          have hthis := ih k
          simp only [segsBufD] at hthis
          rw [if_neg (by simp)] at hthis
          simp only [recNewR, List.cons_append]
          rw [hthis]

theorem cleanSegs_parse : ∀ S : List Rec,
    (∀ t ∈ recNewRaw S, pyRstrip t = t) → cleanSegs (parseSegs S) := by
  intro S
  induction S with
  | nil => intro _; trivial
  | cons r rest ih =>
    intro h
    cases r with
    | ctx t =>
      exact ih (fun u hu => h u (by simp [recNewRaw, hu]))
    | del t =>
      show cleanSegs (match parseSegs rest with
        | .run rs :: more => .run (.del t :: rs) :: more
        | segs => .run [.del t] :: segs)
      have hrest := ih (fun u hu => h u (by simpa [recNewRaw] using hu))
      cases hps : parseSegs rest with
      | nil => exact ⟨by simp [recNewRaw], trivial⟩
      | cons sg more =>
        rw [hps] at hrest
        cases sg with
        | ctx u =>
          show cleanSegs (.run [.del t] :: .ctx u :: more)
          exact ⟨by simp [recNewRaw], hrest⟩
        | run rs =>
          show cleanSegs (.run (.del t :: rs) :: more)
          obtain ⟨hclean, hmore⟩ := hrest
          exact ⟨by simpa [recNewRaw] using hclean, hmore⟩
    | ins t =>
      show cleanSegs (match parseSegs rest with
        | .run rs :: more => .run (.ins t :: rs) :: more
        | segs => .run [.ins t] :: segs)
      have ht : pyRstrip t = t := h t (by simp [recNewRaw])
      have hrest := ih (fun u hu => h u (by simp [recNewRaw, hu]))
      cases hps : parseSegs rest with
      | nil =>
        refine ⟨?_, trivial⟩
        intro u hu
        simp only [recNewRaw, List.mem_cons] at hu
        rcases hu with hu | hu
        · subst hu; exact ht
        · simp [recNewRaw] at hu
      | cons sg more =>
        rw [hps] at hrest
        cases sg with
        | ctx u =>
          show cleanSegs (.run [.ins t] :: .ctx u :: more)
          refine ⟨?_, hrest⟩
          intro u hu
          simp only [recNewRaw, List.mem_cons] at hu
          rcases hu with hu | hu
          · subst hu; exact ht
          · simp [recNewRaw] at hu
        | run rs =>
          show cleanSegs (.run (.ins t :: rs) :: more)
          obtain ⟨hclean, hmore⟩ := hrest
          refine ⟨?_, hmore⟩
          intro u hu
          simp only [recNewRaw, List.mem_cons] at hu
          rcases hu with hu | hu
          · subst hu; exact ht
          · exact hclean u hu

/-! ### `group_diff` over segment lists -/

theorem groupDiffAux_enc_ctx (t : String) (d : List String) (G : List Group)
    (cur : List String) (cs ln : Int) :
    groupDiffAux (encRec (.ctx t) :: d) G cur cs ln =
      groupDiffAux d (if cur ≠ [] then G ++ [⟨cs, ln, cur⟩] else G) [] cs
        (ln + 1) := rfl

theorem groupDiffAux_enc_del (t : String) (d : List String) (G : List Group)
    (cur : List String) (cs ln : Int) :
    groupDiffAux (encRec (.del t) :: d) G cur cs ln =
      groupDiffAux d G (cur ++ [encRec (.del t)])
        (if cur = [] then ln else cs) ln := rfl

theorem groupDiffAux_enc_ins (t : String) (d : List String) (G : List Group)
    (cur : List String) (cs ln : Int) :
    groupDiffAux (encRec (.ins t) :: d) G cur cs ln =
      groupDiffAux d G (cur ++ [encRec (.ins t)])
        (if cur = [] then ln else cs) (ln + 1) := rfl

theorem groupDiffAux_acc : ∀ (rs : List Rec) (G1 G2 : List Group)
    (cur : List String) (cs ln : Int),
    groupDiffAux (rs.map encRec) (G1 ++ G2) cur cs ln
      = G1 ++ groupDiffAux (rs.map encRec) G2 cur cs ln := by
  intro rs
  induction rs with
  | nil =>
    intro G1 G2 cur cs ln
    show (if cur ≠ [] then (G1 ++ G2) ++ [⟨cs, ln - 1, cur⟩] else G1 ++ G2)
      = G1 ++ (if cur ≠ [] then G2 ++ [⟨cs, ln - 1, cur⟩] else G2)
    by_cases hc : cur = []
    · rw [if_neg (by simp [hc]), if_neg (by simp [hc])]
    · rw [if_pos hc, if_pos hc, List.append_assoc]
  | cons r rest ih =>
    intro G1 G2 cur cs ln
    cases r with
    | ctx t =>
      rw [List.map_cons, groupDiffAux_enc_ctx, groupDiffAux_enc_ctx]
      by_cases hc : cur = []
      · rw [if_neg (by simp [hc]), if_neg (by simp [hc]), ih]
      · rw [if_pos hc, if_pos hc, List.append_assoc, ih]
    | del t =>
      rw [List.map_cons, groupDiffAux_enc_del, groupDiffAux_enc_del, ih]
    | ins t =>
      rw [List.map_cons, groupDiffAux_enc_ins, groupDiffAux_enc_ins, ih]

theorem groupDiffAux_run : ∀ rs : List Rec, (∀ r ∈ rs, isChg r = true) →
    ∀ (tail : List Rec) (G : List Group) (cur : List String) (cs ln : Int),
    cur ≠ [] →
    groupDiffAux ((rs ++ tail).map encRec) G cur cs ln
      = groupDiffAux (tail.map encRec) G (cur ++ rs.map encRec) cs
        (ln + ((recNewR rs).length : Int)) := by
  intro rs
  induction rs with
  | nil =>
    intro _ tail G cur cs ln _
    simp [recNewR]
  | cons r rest ih =>
    intro hchg tail G cur cs ln hcur
    cases r with
    | ctx t =>
      have hfalse := hchg (.ctx t) (by simp)
      simp [isChg] at hfalse
    | del t =>
      rw [List.cons_append, List.map_cons, groupDiffAux_enc_del]
      rw [if_neg hcur]
      rw [ih (fun r hr => hchg r (by simp [hr])) tail G _ cs ln (by simp)]
      rw [show recNewR (Rec.del t :: rest) = recNewR rest from rfl]
      simp only [List.append_assoc, List.singleton_append, List.map_cons]
    | ins t =>
      rw [List.cons_append, List.map_cons, groupDiffAux_enc_ins]
      rw [if_neg hcur]
      rw [ih (fun r hr => hchg r (by simp [hr])) tail G _ cs (ln + 1) (by simp)]
      rw [show recNewR (Rec.ins t :: rest) = pyRstrip t :: recNewR rest from rfl]
      simp only [List.append_assoc, List.singleton_append, List.map_cons,
        List.length_cons]
      congr 1
      push_cast
      ring

theorem groupDiffAux_run0 : ∀ rs : List Rec, rs ≠ [] →
    (∀ r ∈ rs, isChg r = true) →
    ∀ (tail : List Rec) (G : List Group) (cs ln : Int),
    groupDiffAux ((rs ++ tail).map encRec) G [] cs ln
      = groupDiffAux (tail.map encRec) G (rs.map encRec) ln
        (ln + ((recNewR rs).length : Int)) := by
  intro rs hne hchg tail G cs ln
  cases rs with
  | nil => exact absurd rfl hne
  | cons r rest =>
    cases r with
    | ctx t =>
      have hfalse := hchg (.ctx t) (by simp)
      simp [isChg] at hfalse
    | del t =>
      rw [List.cons_append, List.map_cons, groupDiffAux_enc_del, if_pos rfl]
      rw [groupDiffAux_run rest (fun r hr => hchg r (by simp [hr])) tail G _ ln
        ln (by simp)]
      rw [show recNewR (Rec.del t :: rest) = recNewR rest from rfl]
      simp only [List.nil_append, List.singleton_append, List.map_cons]
    | ins t =>
      rw [List.cons_append, List.map_cons, groupDiffAux_enc_ins, if_pos rfl]
      rw [groupDiffAux_run rest (fun r hr => hchg r (by simp [hr])) tail G _ ln
        (ln + 1) (by simp)]
      rw [show recNewR (Rec.ins t :: rest) = pyRstrip t :: recNewR rest from rfl]
      simp only [List.nil_append, List.singleton_append, List.map_cons,
        List.length_cons]
      congr 1
      push_cast
      ring

theorem groupDiffAux_segs : ∀ (n : Nat) (segs : List Seg), segs.length ≤ n →
    segsWF segs → ∀ (G : List Group) (cs ln : Int),
    groupDiffAux ((segsToRecs segs).map encRec) G [] cs ln
      = G ++ groupsD (fun _ => false) segs 0 ln := by
  intro n
  induction n with
  | zero =>
    intro segs hlen _ G cs ln
    have : segs = [] := List.eq_nil_of_length_eq_zero (by omega)
    subst this
    simp [segsToRecs, groupDiffAux, groupsD]
  | succ n ih =>
    intro segs hlen hwf G cs ln
    cases segs with
    | nil => simp [segsToRecs, groupDiffAux, groupsD]
    | cons sg rest =>
      cases sg with
      | ctx t =>
        show groupDiffAux ((Rec.ctx t :: segsToRecs rest).map encRec) G [] cs ln
          = G ++ groupsD (fun _ => false) (.ctx t :: rest) 0 ln
        rw [List.map_cons, groupDiffAux_enc_ctx, if_neg (by simp)]
        exact ih rest (by simp at hlen; omega) hwf G cs (ln + 1)
      | run rs =>
        obtain ⟨hne, hchg, hnorun, hwfrest⟩ := hwf
        show groupDiffAux ((rs ++ segsToRecs rest).map encRec) G [] cs ln = _
        rw [groupDiffAux_run0 rs hne hchg (segsToRecs rest) G cs ln]
        cases rest with
        | nil =>
          show (if rs.map encRec ≠ [] then
            G ++ [⟨ln, ln + ((recNewR rs).length : Int) - 1, rs.map encRec⟩]
            else G) = _
          rw [if_pos (by simp [hne])]
          show _ = G ++ [⟨ln, ln + ((recNewR rs).length : Int) - 1, rs.map encRec⟩]
          rfl
        | cons sg2 rest' =>
          cases sg2 with
          | run rs2 => exact absurd hnorun (by simp)
          | ctx u =>
            show groupDiffAux ((Rec.ctx u :: segsToRecs rest').map encRec) G
              (rs.map encRec) ln (ln + ((recNewR rs).length : Int)) = _
            rw [List.map_cons, groupDiffAux_enc_ctx, if_pos (by simp [hne])]
            refine (ih rest' (by simp at hlen ⊢; omega) hwfrest _ ln _).trans ?_
            show (G ++ [⟨ln, ln + ((recNewR rs).length : Int), rs.map encRec⟩])
                ++ groupsD (fun _ => false) rest' 0
                  (ln + ((recNewR rs).length : Int) + 1)
              = G ++ (⟨ln, ln + ((recNewR rs).length : Int) - 0, rs.map encRec⟩ ::
                groupsD (fun _ => false) rest' 1
                  (ln + ((recNewR rs).length : Int) + 1))
            rw [groupsD_constk false rest' 0 1]
            simp only [List.append_assoc, List.singleton_append, sub_zero]

/-- `group_diff` of a well-formed segment script yields exactly one group
per run, with the spans given by `groupsD` over the not-yet-rejected state. -/
theorem group_diff_segsToRecs (segs : List Seg) (hwf : segsWF segs) (s : Int) :
    group_diff ((segsToRecs segs).map encRec) s
      = groupsD (fun _ => false) segs 0 s := by
  have h := groupDiffAux_segs segs.length segs (Nat.le_refl _) hwf [] 0 s
  rw [group_diff, h]
  simp

/-! ### Grouped application of a script (`apply_diff_groups`) -/

theorem applyDiffLoop_enc_ins (cid : Int) (t : String) (rest buf : List String)
    (ov : Overlay) (off : Int) (deleted : List String) :
    applyDiffLoop cid (encRec (.ins t) :: rest) buf ov off deleted =
      applyDiffLoop cid rest (InsertLine off (pyRstrip t) buf)
        (if deleted ≠ [] then
          PlaceSign off "ChangedLine"
            (deleted.foldl (fun o d => ShowTextAbove off "OllamaDiffDel" d o)
              (HighlightLine off cid "OllamaDiffAdd" ov))
        else PlaceSign off "NewLine" (HighlightLine off cid "OllamaDiffAdd" ov))
        (off + 1) [] := rfl

theorem applyDiffLoop_enc_del (cid : Int) (t old : String)
    (rest buf buf' : List String) (ov : Overlay) (off : Int)
    (deleted : List String) (h : DeleteLine off buf = some (old, buf')) :
    applyDiffLoop cid (encRec (.del t) :: rest) buf ov off deleted =
      if old ≠ t then .error (.applyMismatchDeleted off t old, buf', ov)
      else applyDiffLoop cid rest buf' ov off (deleted ++ [old]) := by
  have e : applyDiffLoop cid (encRec (.del t) :: rest) buf ov off deleted =
      (match DeleteLine off buf with
       | none => .error (.indexError, buf, ov)
       | some (old, buf') =>
         if old ≠ t then .error (.applyMismatchDeleted off t old, buf', ov)
         else applyDiffLoop cid rest buf' ov off (deleted ++ [old])) := rfl
  rw [e, h]

theorem applyDiffLoop_enc_run : ∀ rs : List Rec,
    (∀ r ∈ rs, isChg r = true) →
    ∀ (cid : Int) (A Z : List String) (ov : Overlay) (deleted : List String),
    ∃ ov' off' deleted',
      applyDiffLoop cid (rs.map encRec) (A ++ recOld rs ++ Z) ov
          ((A.length : Int) + 1) deleted
        = .ok (A ++ recNewR rs ++ Z, ov', off', deleted') := by
  intro rs
  induction rs with
  | nil =>
    intro _ cid A Z ov deleted
    exact ⟨ov, (A.length : Int) + 1, deleted, by simp [applyDiffLoop, recOld, recNewR]⟩
  | cons r rest ih =>
    intro hchg cid A Z ov deleted
    cases r with
    | ctx t =>
      have hfalse := hchg (.ctx t) (by simp)
      simp [isChg] at hfalse
    | del t =>
      rw [show recOld (Rec.del t :: rest) = t :: recOld rest from rfl]
      rw [show A ++ (t :: recOld rest) ++ Z = A ++ t :: (recOld rest ++ Z) by simp]
      rw [List.map_cons]
      rw [applyDiffLoop_enc_del cid t t _ _ (A ++ (recOld rest ++ Z)) ov _ _
        (DeleteLine_at A _ t)]
      rw [if_neg (by simp)]
      rw [show A ++ (recOld rest ++ Z) = A ++ recOld rest ++ Z by simp]
      obtain ⟨ov', off', d', hloop⟩ :=
        ih (fun r hr => hchg r (by simp [hr])) cid A Z ov (deleted ++ [t])
      exact ⟨ov', off', d', by rw [hloop]; rfl⟩
    | ins t =>
      rw [show recOld (Rec.ins t :: rest) = recOld rest from rfl]
      rw [List.map_cons, applyDiffLoop_enc_ins]
      rw [show A ++ recOld rest ++ Z = A ++ (recOld rest ++ Z) by simp,
        InsertLine_at]
      rw [show A ++ pyRstrip t :: (recOld rest ++ Z)
        = (A ++ [pyRstrip t]) ++ recOld rest ++ Z by simp]
      rw [show (A.length : Int) + 1 + 1
        = (((A ++ [pyRstrip t]).length : Int)) + 1 by simp]
      obtain ⟨ov', off', d', hloop⟩ :=
        ih (fun r hr => hchg r (by simp [hr])) cid (A ++ [pyRstrip t]) Z _ []
      refine ⟨ov', off', d', ?_⟩
      rw [hloop]
      rw [show recNewR (Rec.ins t :: rest) = pyRstrip t :: recNewR rest from rfl]
      simp

theorem apply_diff_enc_run (rs : List Rec) (hchg : ∀ r ∈ rs, isChg r = true)
    (cid : Int) (A Z : List String) (ov : Overlay) :
    ∃ ov', apply_diff cid (rs.map encRec) (A ++ recOld rs ++ Z) ov
        ((A.length : Int) + 1)
      = .ok (A ++ recNewR rs ++ Z, ov') := by
  obtain ⟨ov1, off, d, hloop⟩ := applyDiffLoop_enc_run rs hchg cid A Z ov []
  have e : apply_diff cid (rs.map encRec) (A ++ recOld rs ++ Z) ov
      ((A.length : Int) + 1) =
      (match applyDiffLoop cid (rs.map encRec) (A ++ recOld rs ++ Z) ov
          ((A.length : Int) + 1) [] with
       | .error e => .error e
       | .ok (buf', ov', off, deleted) =>
         if off ≥ (buf'.length : Int) then
           .ok (buf', deleted.foldl
             (fun o d => ShowTextBelow (off - 1) "OllamaDiffDel" d o) ov')
         else
           .ok (buf', deleted.foldl
             (fun o d => ShowTextAbove off "OllamaDiffDel" d o) ov')) := rfl
  rw [e, hloop]
  have hred : (match (Except.ok (A ++ recNewR rs ++ Z, ov1, off, d) :
        Except (PyErr × List String × Overlay)
          (List String × Overlay × Int × List String)) with
      | .error e => .error e
      | .ok (buf', ov', off, deleted) =>
        if off ≥ (buf'.length : Int) then
          Except.ok (buf', deleted.foldl
            (fun o d => ShowTextBelow (off - 1) "OllamaDiffDel" d o) ov')
        else
          Except.ok (buf', deleted.foldl
            (fun o d => ShowTextAbove off "OllamaDiffDel" d o) ov')) =
      (if off ≥ ((A ++ recNewR rs ++ Z).length : Int) then
        Except.ok (A ++ recNewR rs ++ Z, d.foldl
          (fun o x => ShowTextBelow (off - 1) "OllamaDiffDel" x o) ov1)
      else Except.ok (A ++ recNewR rs ++ Z, d.foldl
        (fun o x => ShowTextAbove off "OllamaDiffDel" x o) ov1)) := rfl
  rw [hred]
  by_cases hc : off ≥ ((A ++ recNewR rs ++ Z).length : Int)
  · exact ⟨_, by rw [if_pos hc]⟩
  · exact ⟨_, by rw [if_neg hc]⟩

theorem applyDiffGroupsLoop_cons (idx : Int) (g : Group) (rest : List Group)
    (buf b' : List String) (ov o' : Overlay)
    (h : apply_diff idx g.changes buf ov g.start_line = .ok (b', o')) :
    applyDiffGroupsLoop idx (g :: rest) buf ov
      = applyDiffGroupsLoop (idx + 1) rest b' o' := by
  have e : applyDiffGroupsLoop idx (g :: rest) buf ov =
      (match apply_diff idx g.changes buf ov g.start_line with
       | .error e => .error e
       | .ok (buf', ov') => applyDiffGroupsLoop (idx + 1) rest buf' ov') := rfl
  rw [e, h]

theorem applyDiffGroupsLoop_segs : ∀ segs : List Seg, segsWF segs →
    ∀ (P Q : List String) (ov : Overlay) (idx : Int),
    ∃ ov', applyDiffGroupsLoop idx
        (groupsD (fun _ => false) segs 0 ((P.length : Int) + 1))
        (P ++ segsBufD (fun _ => true) segs 0 ++ Q) ov
      = .ok (P ++ segsBufD (fun _ => false) segs 0 ++ Q, ov') := by
  intro segs
  induction segs with
  | nil =>
    intro _ P Q ov idx
    exact ⟨ov, rfl⟩
  | cons sg rest ih =>
    intro hwf P Q ov idx
    cases sg with
    | ctx t =>
      rw [show segsBufD (fun _ => true) (.ctx t :: rest) 0
        = t :: segsBufD (fun _ => true) rest 0 from rfl]
      rw [show segsBufD (fun _ => false) (.ctx t :: rest) 0
        = t :: segsBufD (fun _ => false) rest 0 from rfl]
      rw [show groupsD (fun _ => false) (.ctx t :: rest) 0 ((P.length : Int) + 1)
        = groupsD (fun _ => false) rest 0 ((P.length : Int) + 1 + 1) from rfl]
      rw [show P ++ t :: segsBufD (fun _ => true) rest 0 ++ Q
        = (P ++ [t]) ++ segsBufD (fun _ => true) rest 0 ++ Q by simp]
      rw [show (P.length : Int) + 1 + 1
        = (((P ++ [t]).length : Int)) + 1 by simp]
      obtain ⟨ov', h⟩ := ih hwf (P ++ [t]) Q ov idx
      refine ⟨ov', ?_⟩
      rw [h]
      simp
    | run rs =>
      obtain ⟨hne, hchg, hnorun, hwfrest⟩ := hwf
      rw [show segsBufD (fun _ => true) (.run rs :: rest) 0
        = recOld rs ++ segsBufD (fun _ => true) rest 1 from rfl]
      rw [show segsBufD (fun _ => false) (.run rs :: rest) 0
        = recNewR rs ++ segsBufD (fun _ => false) rest 1 from rfl]
      rw [segsBufD_constk true rest 1 0, segsBufD_constk false rest 1 0]
      rw [show groupsD (fun _ => false) (.run rs :: rest) 0 ((P.length : Int) + 1)
        = ⟨(P.length : Int) + 1,
            (P.length : Int) + 1 + ((recNewR rs).length : Int) - endAdj rest,
            rs.map encRec⟩ ::
          groupsD (fun _ => false) rest 1
            ((P.length : Int) + 1 + ((recNewR rs).length : Int)) from rfl]
      rw [groupsD_constk false rest 1 0]
      obtain ⟨ov1, happ⟩ := apply_diff_enc_run rs hchg idx P
        (segsBufD (fun _ => true) rest 0 ++ Q) ov
      rw [show P ++ (recOld rs ++ segsBufD (fun _ => true) rest 0) ++ Q
        = P ++ recOld rs ++ (segsBufD (fun _ => true) rest 0 ++ Q) by simp]
      rw [applyDiffGroupsLoop_cons idx _ _ _ _ _ _ happ]
      rw [show P ++ recNewR rs ++ (segsBufD (fun _ => true) rest 0 ++ Q)
        = (P ++ recNewR rs) ++ segsBufD (fun _ => true) rest 0 ++ Q by simp]
      rw [show (P.length : Int) + 1 + ((recNewR rs).length : Int)
        = (((P ++ recNewR rs).length : Int)) + 1 by simp; ring]
      obtain ⟨ov2, h2⟩ := ih hwfrest (P ++ recNewR rs) Q ov1 (idx + 1)
      refine ⟨ov2, ?_⟩
      rw [h2]
      simp

/-- `apply_diff_groups` on a state whose loop succeeds. -/
theorem apply_diff_groups_ok (gl : List Group) (buf : List String)
    (gr : Option (List Group)) (ovr : Overlay) (b : List String) (o : Overlay)
    (hloop : applyDiffGroupsLoop 0 gl buf ovr = .ok (b, o)) :
    apply_diff_groups gl ⟨buf, gr, ovr⟩ = .ok ⟨b, some gl, o⟩ := by
  have e : apply_diff_groups gl ⟨buf, gr, ovr⟩ =
      (match applyDiffGroupsLoop 0 gl buf ovr with
       | .error (e, b, o) => .error (e, ⟨b, some gl, o⟩)
       | .ok (b, o) => .ok ⟨b, some gl, o⟩) := rfl
  rw [e, hloop]

/-! ### Claim C10: direct mode vs. grouped mode -/

/-- C10, counterexample: on a script whose context line does not match the
buffer, direct mode (`apply_change`) fails with a mismatch and leaves the
buffer at `["y"]`, while grouped mode (`apply_diff_groups` of `group_diff`)
never re-checks context lines and happily applies the insertion, producing
`["y", "a"]` — different final buffer content. -/
theorem C10_counterexample :
    apply_change ["  x", "+ a"] ["y"] 1
      = .error (.applyMismatchContext 1 "x", ["y"]) ∧
    apply_diff_groups (group_diff ["  x", "+ a"] 1)
        ⟨["y"], none, ⟨[], [], [], []⟩⟩
      = .ok ⟨["y", "a"], some [⟨2, 2, ["+ a"]⟩],
          ⟨[(2, "NewLine")], [], [], [(2, 0, "OllamaDiffAdd")]⟩⟩ ∧
    (["y", "a"] ≠ ["y"]) := by
  refine ⟨rfl, rfl, by decide⟩

/-- C10, amended: for every script of Context/Insert/Delete records that
matches the buffer (the buffer carries the script's old lines at the start
position), applying the whole script at once with `apply_change` and
applying it group by group with `apply_diff_groups` of `group_diff` both
succeed and produce the same final buffer content. -/
theorem C10_theorem (S : List Rec) (P Q : List String)
    (gr : Option (List Group)) (ov : Overlay) :
    apply_change (S.map encRec) (P ++ recOld S ++ Q) ((P.length : Int) + 1)
      = .ok (P ++ recNewR S ++ Q) ∧
    ∃ st', apply_diff_groups (group_diff (S.map encRec) ((P.length : Int) + 1))
        ⟨P ++ recOld S ++ Q, gr, ov⟩ = .ok st' ∧
      st'.buffer = P ++ recNewR S ++ Q := by
  constructor
  · have h := applyChangeLoop_enc S P Q
    rw [apply_change, h]
  · have hwf := segsWF_parseSegs S
    have hgd : group_diff (S.map encRec) ((P.length : Int) + 1)
        = groupsD (fun _ => false) (parseSegs S) 0 ((P.length : Int) + 1) := by
      conv_lhs => rw [← segsToRecs_parseSegs S]
      exact group_diff_segsToRecs (parseSegs S) hwf _
    obtain ⟨ov', hloop⟩ := applyDiffGroupsLoop_segs (parseSegs S) hwf P Q ov 0
    rw [segsBufD_parse_true S 0, segsBufD_parse_false S 0] at hloop
    rw [hgd]
    exact ⟨⟨P ++ recNewR S ++ Q, some _, ov'⟩,
      apply_diff_groups_ok _ _ gr ov _ _ hloop, rfl⟩

/-! ### Claim C1: rejecting every group, in any order, restores `old` -/

/-- Undoing one run whose applied lines sit at the cursor restores the run's
original (deleted) lines, returning `restored = #Delete - #Insert`. -/
theorem rejectLoop_enc_run : ∀ rs : List Rec,
    (∀ r ∈ rs, isChg r = true) →
    (∀ t ∈ recNewRaw rs, pyRstrip t = t) →
    ∀ (A Z : List String) (ov : Overlay) (restored : Int),
    ∃ ov' ln',
      rejectLoop (rs.map encRec) (A ++ recNewR rs ++ Z) ov
          ((A.length : Int) + 1) restored
        = .ok (A ++ recOld rs ++ Z, ov', ln',
            restored + ((recOld rs).length : Int) - ((recNewR rs).length : Int)) := by
  intro rs
  induction rs with
  | nil =>
    intro _ _ A Z ov restored
    refine ⟨ov, (A.length : Int) + 1, ?_⟩
    show Except.ok (A ++ recNewR [] ++ Z, ov, (A.length : Int) + 1, restored) = _
    simp [recOld, recNewR]
  | cons r rest ih =>
    intro hchg hclean A Z ov restored
    cases r with
    | ctx t =>
      have hfalse := hchg (.ctx t) (by simp)
      simp [isChg] at hfalse
    | del t =>
      rw [show recNewR (Rec.del t :: rest) = recNewR rest from rfl]
      rw [List.map_cons, rejectLoop_enc_del]
      rw [show A ++ recNewR rest ++ Z = A ++ (recNewR rest ++ Z) by simp,
        InsertLine_at]
      rw [show A ++ t :: (recNewR rest ++ Z)
        = (A ++ [t]) ++ recNewR rest ++ Z by simp]
      rw [show (A.length : Int) + 1 + 1
        = (((A ++ [t]).length : Int)) + 1 by simp]
      obtain ⟨ov', ln', h⟩ := ih (fun r hr => hchg r (by simp [hr]))
        (fun u hu => hclean u (by simp [recNewRaw, hu]))
        (A ++ [t]) Z (UnplaceSign ((A.length : Int) + 1) ov) (restored + 1)
      refine ⟨ov', ln', ?_⟩
      rw [h]
      rw [show recOld (Rec.del t :: rest) = t :: recOld rest from rfl]
      simp only [Except.ok.injEq, Prod.mk.injEq, List.length_cons]
      refine ⟨by simp, trivial, trivial, by push_cast; ring⟩
    | ins t =>
      rw [show recNewR (Rec.ins t :: rest) = pyRstrip t :: recNewR rest from rfl]
      rw [show A ++ (pyRstrip t :: recNewR rest) ++ Z
        = A ++ pyRstrip t :: (recNewR rest ++ Z) by simp]
      rw [List.map_cons]
      rw [rejectLoop_enc_ins t (pyRstrip t) _ _ (A ++ (recNewR rest ++ Z)) _ _ _
        (DeleteLine_at A _ (pyRstrip t))]
      have ht : pyRstrip t = t := hclean t (by simp [recNewRaw])
      rw [if_neg (by simp [ht])]
      rw [show A ++ (recNewR rest ++ Z) = A ++ recNewR rest ++ Z by simp]
      obtain ⟨ov', ln', h⟩ := ih (fun r hr => hchg r (by simp [hr]))
        (fun u hu => hclean u (by simp [recNewRaw, hu]))
        A Z (UnplaceSign ((A.length : Int) + 1) ov) (restored - 1)
      refine ⟨ov', ln', ?_⟩
      rw [h]
      rw [show recOld (Rec.ins t :: rest) = recOld rest from rfl]
      simp only [Except.ok.injEq, Prod.mk.injEq, List.length_cons]
      refine ⟨trivial, trivial, trivial, by push_cast; ring⟩

theorem shiftAfter_append (idx r : Int) :
    ∀ (xs ys : List Group) (j : Int),
    shiftAfter idx r j (xs ++ ys)
      = shiftAfter idx r j xs ++ shiftAfter idx r (j + xs.length) ys := by
  intro xs
  induction xs with
  | nil => intro ys j; simp [shiftAfter]
  | cons g rest ih =>
    intro ys j
    show _ :: shiftAfter idx r (j + 1) (rest ++ ys) = _
    rw [ih ys (j + 1)]
    show _ = _ :: (shiftAfter idx r (j + 1) rest
      ++ shiftAfter idx r (j + (rest.length + 1)) ys)
    rw [show j + 1 + (rest.length : Int) = j + ((rest.length : Int) + 1) by ring]

theorem shiftAfter_all_le (idx r : Int) : ∀ (xs : List Group) (j : Int),
    (j + (xs.length : Int) ≤ idx + 1) → shiftAfter idx r j xs = xs := by
  intro xs
  induction xs with
  | nil => intro j _; rfl
  | cons g rest ih =>
    intro j h
    show (if idx < j then _ else g) :: shiftAfter idx r (j + 1) rest = _
    rw [if_neg (by simp at h; omega), ih (j + 1) (by simp at h; omega)]

theorem shiftAfter_all_gt (idx r : Int) : ∀ (xs : List Group) (j : Int),
    idx < j → shiftAfter idx r j xs = xs.map
      (fun g => ⟨g.start_line + r, g.end_line + r, g.changes⟩) := by
  intro xs
  induction xs with
  | nil => intro j _; rfl
  | cons g rest ih =>
    intro j h
    show (if idx < j then (⟨g.start_line + r, g.end_line + r, g.changes⟩ : Group) else g) :: shiftAfter idx r (j + 1) rest = _
    rw [if_pos h, ih (j + 1) (by omega)]
    rfl

/-- The update of the rejected-set: mark run `m` as rejected. -/
def updD (D : Nat → Bool) (m : Nat) : Nat → Bool :=
  fun j => if j = m then true else D j

/-- The central step: in a partially rejected state, rejecting a still
pending group succeeds, restores that run's original lines in place, and
shifts exactly the later groups, producing the state with the run marked
rejected. -/
theorem rejectStep : ∀ segs : List Seg, segsWF segs → cleanSegs segs →
    ∀ (D : Nat → Bool) (k i : Nat) (rs : List Rec),
    nthRun segs i = some rs → D (k + i) = false →
    ∀ (P : List String) (gsPre : List Group) (ov : Overlay),
    ∃ ov', RejectChange ((gsPre.length : Int) + i)
        ⟨P ++ segsBufD D segs k,
          some (gsPre ++ groupsD D segs k ((P.length : Int) + 1)), ov⟩
      = .ok (⟨P ++ segsBufD (updD D (k + i)) segs k,
          some (gsPre ++ groupsD (updD D (k + i)) segs k ((P.length : Int) + 1)),
          ov'⟩, .found) := by
  intro segs
  induction segs with
  | nil => intro _ _ D k i rs hrun; simp [nthRun] at hrun
  | cons sg rest ih =>
    intro hwf hclean D k i rs hrun hDi P gsPre ov
    cases sg with
    | ctx t =>
      have hstep := ih hwf hclean D k i rs hrun hDi (P ++ [t]) gsPre ov
      obtain ⟨ov', hstep⟩ := hstep
      refine ⟨ov', ?_⟩
      rw [show segsBufD D (.ctx t :: rest) k = t :: segsBufD D rest k from rfl]
      rw [show segsBufD (updD D (k + i)) (.ctx t :: rest) k
        = t :: segsBufD (updD D (k + i)) rest k from rfl]
      rw [show groupsD D (.ctx t :: rest) k ((P.length : Int) + 1)
        = groupsD D rest k ((P.length : Int) + 1 + 1) from rfl]
      rw [show groupsD (updD D (k + i)) (.ctx t :: rest) k ((P.length : Int) + 1)
        = groupsD (updD D (k + i)) rest k ((P.length : Int) + 1 + 1) from rfl]
      rw [show P ++ t :: segsBufD D rest k
        = (P ++ [t]) ++ segsBufD D rest k by simp]
      rw [show P ++ t :: segsBufD (updD D (k + i)) rest k
        = (P ++ [t]) ++ segsBufD (updD D (k + i)) rest k by simp]
      rw [show (P.length : Int) + 1 + 1 = (((P ++ [t]).length : Int)) + 1 by simp]
      exact hstep
    | run rs0 =>
      obtain ⟨hne, hchg, hnorun, hwfrest⟩ := hwf
      obtain ⟨hcleanrun, hcleanrest⟩ := hclean
      cases i with
      | succ i' =>
        have hDi' : D ((k + 1) + i') = false := by
          rw [show (k + 1) + i' = k + (i' + 1) by omega]
          exact hDi
        have hrun' : nthRun rest i' = some rs := hrun
        obtain ⟨ov', hstep⟩ := ih hwfrest hcleanrest D (k + 1) i' rs hrun' hDi'
          (P ++ (if D k then recOld rs0 else recNewR rs0))
          (gsPre ++ [⟨(P.length : Int) + 1,
            (P.length : Int) + 1 + ((recNewR rs0).length : Int) - endAdj rest,
            rs0.map encRec⟩]) ov
        refine ⟨ov', ?_⟩
        have hupd : updD D (k + (i' + 1)) = updD D ((k + 1) + i') := by
          rw [show k + (i' + 1) = (k + 1) + i' by omega]
        have hDk : updD D ((k + 1) + i') k = D k := by
          show (if k = (k + 1) + i' then true else D k) = D k
          rw [if_neg (by omega)]
        rw [show segsBufD D (.run rs0 :: rest) k
          = (if D k then recOld rs0 else recNewR rs0) ++ segsBufD D rest (k + 1)
          from rfl]
        rw [hupd]
        rw [show segsBufD (updD D ((k + 1) + i')) (.run rs0 :: rest) k
          = (if updD D ((k + 1) + i') k then recOld rs0 else recNewR rs0)
            ++ segsBufD (updD D ((k + 1) + i')) rest (k + 1) from rfl]
        rw [hDk]
        rw [show groupsD D (.run rs0 :: rest) k ((P.length : Int) + 1)
          = ⟨(P.length : Int) + 1,
              (P.length : Int) + 1 + ((recNewR rs0).length : Int) - endAdj rest,
              rs0.map encRec⟩ ::
            groupsD D rest (k + 1)
              ((P.length : Int) + 1 +
                (if D k then ((recOld rs0).length : Int)
                 else ((recNewR rs0).length : Int))) from rfl]
        rw [show groupsD (updD D ((k + 1) + i')) (.run rs0 :: rest) k
            ((P.length : Int) + 1)
          = ⟨(P.length : Int) + 1,
              (P.length : Int) + 1 + ((recNewR rs0).length : Int) - endAdj rest,
              rs0.map encRec⟩ ::
            groupsD (updD D ((k + 1) + i')) rest (k + 1)
              ((P.length : Int) + 1 +
                (if updD D ((k + 1) + i') k then ((recOld rs0).length : Int)
                 else ((recNewR rs0).length : Int))) from rfl]
        rw [hDk]
        have hlen0 : (P.length : Int) + 1 +
            (if D k then ((recOld rs0).length : Int)
             else ((recNewR rs0).length : Int))
          = (((P ++ (if D k then recOld rs0 else recNewR rs0)).length : Int)) + 1 := by
          by_cases hDk0 : D k
          · rw [if_pos hDk0, if_pos hDk0]
            simp only [List.length_append, Nat.cast_add]
            ring
          · rw [if_neg hDk0, if_neg hDk0]
            simp only [List.length_append, Nat.cast_add]
            ring
        rw [hlen0]
        rw [show P ++ ((if D k then recOld rs0 else recNewR rs0)
            ++ segsBufD D rest (k + 1))
          = (P ++ (if D k then recOld rs0 else recNewR rs0))
            ++ segsBufD D rest (k + 1) by simp]
        rw [show P ++ ((if D k then recOld rs0 else recNewR rs0)
            ++ segsBufD (updD D ((k + 1) + i')) rest (k + 1))
          = (P ++ (if D k then recOld rs0 else recNewR rs0))
            ++ segsBufD (updD D ((k + 1) + i')) rest (k + 1) by simp]
        rw [show gsPre ++ (⟨(P.length : Int) + 1,
            (P.length : Int) + 1 + ((recNewR rs0).length : Int) - endAdj rest,
            rs0.map encRec⟩ ::
            groupsD D rest (k + 1)
              ((((P ++ (if D k then recOld rs0 else recNewR rs0)).length : Int))
                + 1))
          = (gsPre ++ [⟨(P.length : Int) + 1,
              (P.length : Int) + 1 + ((recNewR rs0).length : Int) - endAdj rest,
              rs0.map encRec⟩]) ++
            groupsD D rest (k + 1)
              ((((P ++ (if D k then recOld rs0 else recNewR rs0)).length : Int))
                + 1) by simp]
        rw [show gsPre ++ (⟨(P.length : Int) + 1,
            (P.length : Int) + 1 + ((recNewR rs0).length : Int) - endAdj rest,
            rs0.map encRec⟩ ::
            groupsD (updD D ((k + 1) + i')) rest (k + 1)
              ((((P ++ (if D k then recOld rs0 else recNewR rs0)).length : Int))
                + 1))
          = (gsPre ++ [⟨(P.length : Int) + 1,
              (P.length : Int) + 1 + ((recNewR rs0).length : Int) - endAdj rest,
              rs0.map encRec⟩]) ++
            groupsD (updD D ((k + 1) + i')) rest (k + 1)
              ((((P ++ (if D k then recOld rs0 else recNewR rs0)).length : Int))
                + 1) by simp]
        rw [show ((gsPre.length : Int)) + ((i' + 1 : Nat) : Int)
          = (((gsPre ++ [(⟨(P.length : Int) + 1,
              (P.length : Int) + 1 + ((recNewR rs0).length : Int) - endAdj rest,
              rs0.map encRec⟩ : Group)]).length : Int)) + (i' : Int) by
            simp only [List.length_append, List.length_singleton, Nat.cast_add,
              Nat.cast_one]
            ring]
        exact hstep
      | zero =>
        have hD : D k = false := hDi
        obtain ⟨ov', ln', hloop⟩ := rejectLoop_enc_run rs0 hchg hcleanrun
          P (segsBufD D rest (k + 1))
          (ClearHighlights ((gsPre.length : Int)) "OllamaDiffDel"
            (ClearHighlights ((gsPre.length : Int)) "OllamaDiffAdd" ov)) 0
        rw [show (0 : Int) + ((recOld rs0).length : Int)
            - ((recNewR rs0).length : Int)
          = ((recOld rs0).length : Int) - ((recNewR rs0).length : Int)
          by ring] at hloop
        refine ⟨ov', ?_⟩
        simp only [Nat.cast_zero, add_zero, Nat.add_zero]
        rw [show segsBufD D (.run rs0 :: rest) k
          = (if D k then recOld rs0 else recNewR rs0) ++ segsBufD D rest (k + 1)
          from rfl]
        rw [if_neg (by simp [hD])]
        rw [show groupsD D (.run rs0 :: rest) k ((P.length : Int) + 1)
          = ⟨(P.length : Int) + 1,
              (P.length : Int) + 1 + ((recNewR rs0).length : Int) - endAdj rest,
              rs0.map encRec⟩ ::
            groupsD D rest (k + 1)
              ((P.length : Int) + 1 +
                (if D k then ((recOld rs0).length : Int)
                 else ((recNewR rs0).length : Int))) from rfl]
        rw [if_neg (by simp [hD])]
        have hupdk : updD D k k = true := by
          show (if k = k then true else D k) = true
          rw [if_pos rfl]
        rw [show segsBufD (updD D k) (.run rs0 :: rest) k
          = (if updD D k k then recOld rs0 else recNewR rs0)
            ++ segsBufD (updD D k) rest (k + 1) from rfl]
        rw [if_pos hupdk]
        rw [show groupsD (updD D k) (.run rs0 :: rest) k ((P.length : Int) + 1)
          = ⟨(P.length : Int) + 1,
              (P.length : Int) + 1 + ((recNewR rs0).length : Int) - endAdj rest,
              rs0.map encRec⟩ ::
            groupsD (updD D k) rest (k + 1)
              ((P.length : Int) + 1 +
                (if updD D k k then ((recOld rs0).length : Int)
                 else ((recNewR rs0).length : Int))) from rfl]
        rw [if_pos hupdk]
        have hcongrBuf : segsBufD (updD D k) rest (k + 1)
            = segsBufD D rest (k + 1) := by
          refine segsBufD_congr _ _ rest (k + 1) ?_
          intro j hj _
          show (if j = k then true else D j) = D j
          rw [if_neg (by omega)]
        have hcongrGr : ∀ s : Int, groupsD (updD D k) rest (k + 1) s
            = groupsD D rest (k + 1) s := by
          intro s
          refine groupsD_congr _ _ rest (k + 1) s ?_
          intro j hj _
          show (if j = k then true else D j) = D j
          rw [if_neg (by omega)]
        rw [hcongrBuf, hcongrGr]
        rw [show (P.length : Int) + 1 + ((recOld rs0).length : Int)
          = ((P.length : Int) + 1 + ((recNewR rs0).length : Int))
            + (((recOld rs0).length : Int) - ((recNewR rs0).length : Int))
          by ring]
        rw [groupsD_shift D rest (k + 1)
          ((P.length : Int) + 1 + ((recNewR rs0).length : Int))
          (((recOld rs0).length : Int) - ((recNewR rs0).length : Int))]
        have hg : (gsPre ++ (⟨(P.length : Int) + 1,
            (P.length : Int) + 1 + ((recNewR rs0).length : Int) - endAdj rest,
            rs0.map encRec⟩ : Group) ::
            groupsD D rest (k + 1)
              ((P.length : Int) + 1 + ((recNewR rs0).length : Int))).get?
            ((gsPre.length : Int)).toNat
          = some ⟨(P.length : Int) + 1,
              (P.length : Int) + 1 + ((recNewR rs0).length : Int) - endAdj rest,
              rs0.map encRec⟩ := by
          rw [Int.toNat_natCast]
          rw [List.get?_append_right (Nat.le_refl _), Nat.sub_self]
          rfl
        rw [show P ++ (recNewR rs0 ++ segsBufD D rest (k + 1))
          = P ++ recNewR rs0 ++ segsBufD D rest (k + 1)
          from (List.append_assoc P (recNewR rs0)
            (segsBufD D rest (k + 1))).symm]
        rw [RejectChange_found
          (P ++ recNewR rs0 ++ segsBufD D rest (k + 1))
          (gsPre ++ (⟨(P.length : Int) + 1,
            (P.length : Int) + 1 + ((recNewR rs0).length : Int) - endAdj rest,
            rs0.map encRec⟩ : Group) ::
            groupsD D rest (k + 1)
              ((P.length : Int) + 1 + ((recNewR rs0).length : Int)))
          ov ((gsPre.length : Int))
          ⟨(P.length : Int) + 1,
            (P.length : Int) + 1 + ((recNewR rs0).length : Int) - endAdj rest,
            rs0.map encRec⟩
          (by omega) hg
          (P ++ recOld rs0 ++ segsBufD D rest (k + 1)) ov' ln'
          (((recOld rs0).length : Int) - ((recNewR rs0).length : Int)) hloop]
        rw [show gsPre ++ (⟨(P.length : Int) + 1,
            (P.length : Int) + 1 + ((recNewR rs0).length : Int) - endAdj rest,
            rs0.map encRec⟩ : Group) ::
            groupsD D rest (k + 1)
              ((P.length : Int) + 1 + ((recNewR rs0).length : Int))
          = (gsPre ++ [(⟨(P.length : Int) + 1,
              (P.length : Int) + 1 + ((recNewR rs0).length : Int) - endAdj rest,
              rs0.map encRec⟩ : Group)])
            ++ groupsD D rest (k + 1)
              ((P.length : Int) + 1 + ((recNewR rs0).length : Int)) by simp]
        rw [shiftAfter_append ((gsPre.length : Int))
          (((recOld rs0).length : Int) - ((recNewR rs0).length : Int))
          (gsPre ++ [(⟨(P.length : Int) + 1,
            (P.length : Int) + 1 + ((recNewR rs0).length : Int) - endAdj rest,
            rs0.map encRec⟩ : Group)])
          (groupsD D rest (k + 1)
            ((P.length : Int) + 1 + ((recNewR rs0).length : Int))) 0]
        rw [shiftAfter_append ((gsPre.length : Int))
          (((recOld rs0).length : Int) - ((recNewR rs0).length : Int))
          gsPre [(⟨(P.length : Int) + 1,
            (P.length : Int) + 1 + ((recNewR rs0).length : Int) - endAdj rest,
            rs0.map encRec⟩ : Group)] 0]
        rw [shiftAfter_all_le ((gsPre.length : Int))
          (((recOld rs0).length : Int) - ((recNewR rs0).length : Int))
          gsPre 0 (by omega)]
        rw [shiftAfter_all_le ((gsPre.length : Int))
          (((recOld rs0).length : Int) - ((recNewR rs0).length : Int))
          [(⟨(P.length : Int) + 1,
            (P.length : Int) + 1 + ((recNewR rs0).length : Int) - endAdj rest,
            rs0.map encRec⟩ : Group)] ((0 : Int) + (gsPre.length : Int))
          (by simp only [List.length_singleton]; omega)]
        rw [shiftAfter_all_gt ((gsPre.length : Int))
          (((recOld rs0).length : Int) - ((recNewR rs0).length : Int))
          (groupsD D rest (k + 1)
            ((P.length : Int) + 1 + ((recNewR rs0).length : Int)))
          ((0 : Int) + ((gsPre ++ [(⟨(P.length : Int) + 1,
            (P.length : Int) + 1 + ((recNewR rs0).length : Int) - endAdj rest,
            rs0.map encRec⟩ : Group)]).length : Int))
          (by simp only [List.length_append, List.length_singleton]; omega)]
        simp

/-- Folding `RejectChange` over any list of distinct pending group indices
succeeds and marks exactly those runs as rejected in the buffer. -/
theorem rejectRun_inv : ∀ (order : List Nat) (segs : List Seg),
    segsWF segs → cleanSegs segs →
    ∀ (D : Nat → Bool) (ov : Overlay),
    (∀ i ∈ order, i < numRuns segs) →
    (∀ i ∈ order, D i = false) →
    order.Nodup →
    ∃ st', rejectAllLoop ⟨segsBufD D segs 0, some (groupsD D segs 0 1), ov⟩
        order = .ok st' ∧
      st'.buffer
        = segsBufD (fun j => if j ∈ order then true else D j) segs 0 := by
  intro order
  induction order with
  | nil =>
    intro segs hwf hclean D ov _ _ _
    refine ⟨⟨segsBufD D segs 0, some (groupsD D segs 0 1), ov⟩, rfl, ?_⟩
    show segsBufD D segs 0
      = segsBufD (fun j => if j ∈ ([] : List Nat) then true else D j) segs 0
    exact (segsBufD_congr _ _ segs 0 (fun j _ _ => by simp)).symm
  | cons i rest ih =>
    intro segs hwf hclean D ov hlt hfalse hnodup
    obtain ⟨rs, hrun⟩ := nthRun_isSome segs i (hlt i (by simp))
    have hDi : D (0 + i) = false := by
      rw [Nat.zero_add]
      exact hfalse i (by simp)
    obtain ⟨ov', hstep⟩ := rejectStep segs hwf hclean D 0 i rs hrun hDi [] [] ov
    simp only [List.nil_append, List.length_nil, Nat.cast_zero, zero_add,
      Nat.zero_add] at hstep
    have e0 : rejectAllLoop ⟨segsBufD D segs 0, some (groupsD D segs 0 1), ov⟩
        (i :: rest)
      = (match RejectChange ((i : Nat) : Int)
            ⟨segsBufD D segs 0, some (groupsD D segs 0 1), ov⟩ with
         | .error err => .error err
         | .ok (st', _) => rejectAllLoop st' rest) := rfl
    rw [e0, hstep]
    show ∃ st', rejectAllLoop ⟨segsBufD (updD D i) segs 0,
        some (groupsD (updD D i) segs 0 1), ov'⟩ rest = .ok st' ∧
      st'.buffer
        = segsBufD (fun j => if j ∈ i :: rest then true else D j) segs 0
    obtain ⟨st', hloop', hbuf⟩ := ih segs hwf hclean (updD D i) ov'
      (fun j hj => hlt j (by simp [hj]))
      (fun j hj => by
        show (if j = i then true else D j) = false
        rw [if_neg (fun (hji : j = i) =>
          (List.nodup_cons.mp hnodup).1 (hji ▸ hj))]
        exact hfalse j (by simp [hj]))
      (List.nodup_cons.mp hnodup).2
    refine ⟨st', hloop', ?_⟩
    rw [hbuf]
    refine segsBufD_congr _ _ segs 0 ?_
    intro j _ _
    by_cases hji : j = i
    · subst hji
      by_cases hjr : j ∈ rest
      · simp [hjr]
      · simp [hjr, updD]
    · by_cases hjr : j ∈ rest
      · simp [hjr, hji]
      · simp [hjr, hji, updD]

/-- C1: when no line of `new` carries trailing whitespace, applying all
groups of `group_diff (compute_diff old new) 1` to a buffer holding `old`
succeeds, and then calling `RejectChange` exactly once for every group
index, in any order (any permutation of the group indices), succeeds and
leaves the final buffer equal to `old`. -/
theorem C1_theorem (old new : List String)
    (hclean : ∀ t ∈ new, pyRstrip t = t)
    (ov0 : Overlay) (order : List Nat)
    (hperm : order.Perm
      (List.range (group_diff (compute_diff old new) 1).length)) :
    ∃ stMid stFin,
      apply_diff_groups (group_diff (compute_diff old new) 1)
          ⟨old, none, ov0⟩ = .ok stMid ∧
      rejectAllLoop stMid order = .ok stFin ∧
      stFin.buffer = old := by
  have hold : recOld (recDiff (old.length + new.length) old new) = old :=
    recOld_recDiff _ old new (Nat.le_refl _)
  have hnewraw : recNewRaw (recDiff (old.length + new.length) old new) = new :=
    recNewRaw_recDiff _ old new (Nat.le_refl _)
  have hwf := segsWF_parseSegs (recDiff (old.length + new.length) old new)
  have hcleanS :
      cleanSegs (parseSegs (recDiff (old.length + new.length) old new)) :=
    cleanSegs_parse _ (fun t ht => hclean t (hnewraw ▸ ht))
  have hgd : group_diff (compute_diff old new) 1
      = groupsD (fun _ => false)
          (parseSegs (recDiff (old.length + new.length) old new)) 0 1 := by
    show group_diff
      ((recDiff (old.length + new.length) old new).map encRec) 1 = _
    conv_lhs => rw [← segsToRecs_parseSegs
      (recDiff (old.length + new.length) old new)]
    exact group_diff_segsToRecs _ hwf 1
  have hlen : (group_diff (compute_diff old new) 1).length
      = numRuns (parseSegs (recDiff (old.length + new.length) old new)) := by
    rw [hgd]
    exact groupsD_length _ _ _ _
  obtain ⟨ov1, hloop⟩ := applyDiffGroupsLoop_segs
    (parseSegs (recDiff (old.length + new.length) old new)) hwf [] [] ov0 0
  rw [segsBufD_parse_true _ 0, segsBufD_parse_false _ 0] at hloop
  simp only [List.nil_append, List.append_nil, List.length_nil,
    Nat.cast_zero, zero_add] at hloop
  rw [hold] at hloop
  have happly := apply_diff_groups_ok _ old none ov0 _ _ hloop
  obtain ⟨stFin, hrej, hbuf⟩ := rejectRun_inv order
    (parseSegs (recDiff (old.length + new.length) old new)) hwf hcleanS
    (fun _ => false) ov1
    (fun i hi => by
      have := hperm.mem_iff.mp hi
      rw [List.mem_range, hlen] at this
      exact this)
    (fun i _ => rfl)
    (hperm.symm.nodup (List.nodup_range _))
  rw [segsBufD_parse_false _ 0] at hrej
  have hcongr : segsBufD
      (fun j => if j ∈ order then true else (fun _ => false) j)
      (parseSegs (recDiff (old.length + new.length) old new)) 0
      = segsBufD (fun _ => true)
        (parseSegs (recDiff (old.length + new.length) old new)) 0 := by
    refine segsBufD_congr _ _ _ 0 ?_
    intro j _ hj2
    have hjo : j ∈ order := hperm.mem_iff.mpr
      (List.mem_range.mpr (by rw [hlen]; omega))
    show (if j ∈ order then true else false) = true
    rw [if_pos hjo]
  refine ⟨⟨recNewR (recDiff (old.length + new.length) old new),
      some (groupsD (fun _ => false)
        (parseSegs (recDiff (old.length + new.length) old new)) 0 1), ov1⟩,
    stFin, ?_, hrej, ?_⟩
  · rw [hgd]
    exact happly
  · rw [hbuf, hcongr, segsBufD_parse_true _ 0, hold]

/-- Witness for C1 on `old = ["a", "b", "c"]`,
`new = ["a", "x", "b", "c", "y"]` (two groups), rejected in the mixed
order `[1, 0]`. -/
theorem C1_witness :
    (∀ t ∈ ["a", "x", "b", "c", "y"], pyRstrip t = t) ∧
    ([1, 0] : List Nat).Perm (List.range (group_diff
      (compute_diff ["a", "b", "c"] ["a", "x", "b", "c", "y"]) 1).length) ∧
    ∃ stMid stFin,
      apply_diff_groups (group_diff
          (compute_diff ["a", "b", "c"] ["a", "x", "b", "c", "y"]) 1)
          ⟨["a", "b", "c"], none, ⟨[], [], [], []⟩⟩ = .ok stMid ∧
      rejectAllLoop stMid [1, 0] = .ok stFin ∧
      stFin.buffer = ["a", "b", "c"] :=
  ⟨by decide, by decide,
    C1_theorem ["a", "b", "c"] ["a", "x", "b", "c", "y"] (by decide)
      ⟨[], [], [], []⟩ [1, 0] (by decide)⟩

end VimOllama
